import Mathlib

/-!
# Patient-container chaincode (`smartcontract.go`)

A shallow embedding of the contract `SmartContract` and of the two libraries it
is written against: Go's `encoding/json` for the record `PatientContainer`, and
the Fabric chaincode stub (`GetState`, `PutState`, `DelState`,
`GetHistoryForKey`, `GetStateByRange`).

Go strings and byte slices are sequences of bytes. A byte is written as its
numeric value, a number below 256; the definitions are total on all numbers
and read a larger one as a byte that starts no valid UTF-8 encoding, so no
theorem needs a hypothesis on the size of the bytes.

Loops of the libraries that consume a varying number of bytes per iteration
carry a bound on the number of iterations; the bounds used are never reached
(`appendStringLoop_fuel`, `coerceLoop_fuel`, `validLoop_fuel`,
`unquoteLoop_fuel`, `parse_fuel`).
-/

namespace Chaincode

/-- Equality of results is decidable when it is for errors and values. -/
instance instDecidableEqExcept {ε α : Type} [DecidableEq ε] [DecidableEq α] :
    DecidableEq (Except ε α)
  | Except.ok a, Except.ok b =>
    if h : a = b then isTrue (by rw [h]) else isFalse (fun h2 => h (Except.ok.inj h2))
  | Except.error a, Except.error b =>
    if h : a = b then isTrue (by rw [h]) else isFalse (fun h2 => h (Except.error.inj h2))
  | Except.ok _, Except.error _ => isFalse (fun h => nomatch h)
  | Except.error _, Except.ok _ => isFalse (fun h => nomatch h)

/-- A Go `string` or `[]byte`: the sequence of its bytes. -/
abbrev Bytes := List Nat

/-- The bytes of an ASCII literal of the source text. -/
def ascii (s : String) : Bytes := s.data.map Char.toNat

/-! ## `unicode/utf8` -/

/-- Go `utf8.RuneError`, U+FFFD. -/
def RuneError : Nat := 0xFFFD

/-- Go's tables `first` and `acceptRanges`: for a lead byte of a multi-byte
sequence, the length of the sequence and the range accepted for its second
byte; `none` for a byte that starts no multi-byte sequence. -/
def leadInfo (p0 : Nat) : Option (Nat × Nat × Nat) :=
  if 0xC2 ≤ p0 ∧ p0 ≤ 0xDF then some (2, 0x80, 0xBF)
  else if p0 = 0xE0 then some (3, 0xA0, 0xBF)
  else if 0xE1 ≤ p0 ∧ p0 ≤ 0xEC then some (3, 0x80, 0xBF)
  else if p0 = 0xED then some (3, 0x80, 0x9F)
  else if 0xEE ≤ p0 ∧ p0 ≤ 0xEF then some (3, 0x80, 0xBF)
  else if p0 = 0xF0 then some (4, 0x90, 0xBF)
  else if 0xF1 ≤ p0 ∧ p0 ≤ 0xF3 then some (4, 0x80, 0xBF)
  else if p0 = 0xF4 then some (4, 0x80, 0x8F)
  else none

/-- Go `utf8.DecodeRune`: the first rune of `p` and its width in bytes;
`(RuneError, 1)` when `p` starts with an invalid encoding, `(RuneError, 0)`
when `p` is empty. -/
def decodeRune (p : Bytes) : Nat × Nat :=
  match p with
  | [] => (RuneError, 0)
  | p0 :: rest =>
    if p0 < 0x80 then (p0, 1)
    else
      match leadInfo p0 with
      | none => (RuneError, 1)
      | some (sz, lo, hi) =>
        if rest.length + 1 < sz then (RuneError, 1)
        else
          match rest with
          | [] => (RuneError, 1)
          | b1 :: rest1 =>
            if b1 < lo ∨ hi < b1 then (RuneError, 1)
            else if sz ≤ 2 then ((p0 % 32) * 64 + b1 % 64, 2)
            else
              match rest1 with
              | [] => (RuneError, 1)
              | b2 :: rest2 =>
                if b2 < 0x80 ∨ 0xBF < b2 then (RuneError, 1)
                else if sz ≤ 3 then ((p0 % 16) * 4096 + (b1 % 64) * 64 + b2 % 64, 3)
                else
                  match rest2 with
                  | [] => (RuneError, 1)
                  | b3 :: _ =>
                    if b3 < 0x80 ∨ 0xBF < b3 then (RuneError, 1)
                    else ((p0 % 8) * 262144 + (b1 % 64) * 4096 + (b2 % 64) * 64 + b3 % 64, 4)

/-- Go `utf8.EncodeRune`: the UTF-8 encoding of `r`; surrogates and values
above U+10FFFF are encoded as U+FFFD. -/
def encodeRune (r : Nat) : Bytes :=
  if r ≤ 0x7F then [r]
  else if r ≤ 0x7FF then [0xC0 + r / 64, 0x80 + r % 64]
  else if 0x10FFFF < r ∨ (0xD800 ≤ r ∧ r ≤ 0xDFFF) then [0xEF, 0xBF, 0xBD]
  else if r ≤ 0xFFFF then [0xE0 + r / 4096, 0x80 + (r / 64) % 64, 0x80 + r % 64]
  else [0xF0 + r / 262144, 0x80 + (r / 4096) % 64, 0x80 + (r / 64) % 64, 0x80 + r % 64]

/-- Go `utf8.Valid`, as a loop over `decodeRune`; the first argument bounds the
number of iterations. -/
def validLoop : Nat → Bytes → Bool
  | 0, p => p.isEmpty
  | n + 1, p =>
    match p with
    | [] => true
    | b :: rest =>
      if b < 0x80 then validLoop n rest
      else
        let d := decodeRune (b :: rest)
        if d.2 = 1 then false else validLoop n ((b :: rest).drop d.2)

/-- Go `utf8.Valid`: `p` consists entirely of valid UTF-8 encoded runes. -/
def utf8Valid (p : Bytes) : Bool := validLoop p.length p

/-- The coercion to valid UTF-8 that `encoding/json` applies to a string, on
encoding and on decoding: valid runes are kept, and every byte that starts no
valid encoding is replaced by the encoding of U+FFFD. The first argument
bounds the number of iterations. -/
def coerceLoop : Nat → Bytes → Bytes
  | 0, _ => []
  | n + 1, p =>
    match p with
    | [] => []
    | b :: rest =>
      if b < 0x80 then b :: coerceLoop n rest
      else
        let d := decodeRune (b :: rest)
        if d.2 = 1 then [0xEF, 0xBF, 0xBD] ++ coerceLoop n rest
        else (b :: rest).take d.2 ++ coerceLoop n ((b :: rest).drop d.2)

/-- The string `p` coerced to valid UTF-8. -/
def coerceUTF8 (p : Bytes) : Bytes := coerceLoop p.length p

/-! ## `encoding/json`: encoding -/

/-- Go's `hex` table `"0123456789abcdef"`. -/
def hexDigit (n : Nat) : Nat := if n < 10 then 48 + n else 87 + n

/-- Go's `htmlSafeSet`: the ASCII bytes that `json.Marshal` copies unescaped
(`"`, `\`, `<`, `>`, `&` and the control characters are escaped). -/
def htmlSafe (b : Nat) : Bool :=
  decide (0x20 ≤ b) && decide (b < 0x80) && !(b = 0x22 || b = 0x5C || b = 0x3C || b = 0x3E || b = 0x26)

/-- The escape `appendString` writes for an ASCII byte outside `htmlSafeSet`.
(Go before 1.22 writes `\u0008` and `\u000c` where later versions write `\b`
and `\f`; the decoder reads both forms as the same byte.) -/
def escapeByte (b : Nat) : Bytes :=
  if b = 0x5C ∨ b = 0x22 then [0x5C, b]
  else if b = 0x08 then [0x5C, 0x62]
  else if b = 0x0C then [0x5C, 0x66]
  else if b = 0x0A then [0x5C, 0x6E]
  else if b = 0x0D then [0x5C, 0x72]
  else if b = 0x09 then [0x5C, 0x74]
  else [0x5C, 0x75, 0x30, 0x30, hexDigit (b / 16), hexDigit (b % 16)]

/-- The loop of `appendString` (encode.go, `escapeHTML = true`): the contents
of the JSON string literal for `src`, without the quotes. The first argument
bounds the iterations; each iteration consumes at least one byte. -/
def appendStringLoop : Nat → Bytes → Bytes
  | 0, _ => []
  | n + 1, src =>
    match src with
    | [] => []
    | b :: rest =>
      if b < 0x80 then
        (if htmlSafe b then [b] else escapeByte b) ++ appendStringLoop n rest
      else
        let d := decodeRune ((b :: rest).take 4)
        if d.1 = RuneError ∧ d.2 = 1 then
          ascii "\\ufffd" ++ appendStringLoop n rest
        else if d.1 = 0x2028 ∨ d.1 = 0x2029 then
          ascii "\\u202" ++ [hexDigit (d.1 % 16)] ++ appendStringLoop n ((b :: rest).drop d.2)
        else
          (b :: rest).take d.2 ++ appendStringLoop n ((b :: rest).drop d.2)

/-- Go `appendString`: the JSON string literal for `src`. -/
def appendString (src : Bytes) : Bytes :=
  [0x22] ++ appendStringLoop src.length src ++ [0x22]

/-- The record of the source: `type PatientContainer struct { CID, UID string }`. -/
structure PatientContainer where
  CID : Bytes
  UID : Bytes
  deriving DecidableEq, Repr

/-- Go `json.Marshal(asset)` for a `PatientContainer`: the members are written
in the order of the struct's fields, `CID` then `UID`. Marshalling a struct of
two strings cannot fail. -/
def Marshal (asset : PatientContainer) : Bytes :=
  ascii "\x7b\"CID\":" ++ appendString asset.CID ++ ascii ",\"UID\":" ++ appendString asset.UID
    ++ ascii "\x7d"

/-! ## `encoding/json`: decoding -/

/-- A parsed JSON value. Numbers keep no value: the decoder of the record only
needs to know that a number stands there. -/
inductive JValue where
  | null
  | bool (b : Bool)
  | number
  | string (s : Bytes)
  | array (items : List JValue)
  | object (members : List (Bytes × JValue))

/-- The scanner's `isSpace`: space, tab, carriage return, line feed. -/
def isSpace (c : Nat) : Bool := c = 0x20 || c = 0x09 || c = 0x0D || c = 0x0A

/-- Skip insignificant whitespace. -/
def skipWs : Bytes → Bytes
  | [] => []
  | c :: rest => if isSpace c then skipWs rest else c :: rest

/-- The value of a hexadecimal digit, as `getu4` reads it. -/
def hexVal (c : Nat) : Option Nat :=
  if 0x30 ≤ c ∧ c ≤ 0x39 then some (c - 0x30)
  else if 0x61 ≤ c ∧ c ≤ 0x66 then some (c - 0x61 + 10)
  else if 0x41 ≤ c ∧ c ≤ 0x46 then some (c - 0x41 + 10)
  else none

/-- The number written by the four hexadecimal digits at the start of `s`. -/
def hex4 (s : Bytes) : Option Nat :=
  match s with
  | a :: b :: c :: d :: _ =>
    match hexVal a, hexVal b, hexVal c, hexVal d with
    | some x, some y, some z, some w => some (((x * 16 + y) * 16 + z) * 16 + w)
    | _, _, _, _ => none
  | _ => none

/-- Go `getu4`: the rune of an escape `\uXXXX` at the start of `s`. -/
def getu4 (s : Bytes) : Option Nat :=
  match s with
  | 0x5C :: 0x75 :: rest => hex4 rest
  | _ => none

/-- Prepend decoded bytes to the result of the rest of a string literal. -/
def consChunk (chunk : Bytes) (r : Option (Bytes × Bytes)) : Option (Bytes × Bytes) :=
  r.map (fun p => (chunk ++ p.1, p.2))

/-- The scanner's string states together with `unquoteBytes`: reads the
contents of a string literal after its opening quote and returns the decoded
string and the input after the closing quote. Escapes are resolved, a
surrogate pair of `\u` escapes is combined, and invalid UTF-8 and lone
surrogates become U+FFFD. `none` is a syntax error: an unterminated literal, a
control character, or an invalid escape. The first argument bounds the
iterations. -/
def unquoteLoop : Nat → Bytes → Option (Bytes × Bytes)
  | 0, _ => none
  | n + 1, s =>
    match s with
    | [] => none
    | c :: rest =>
      if c = 0x22 then some ([], rest)
      else if c = 0x5C then
        match rest with
        | [] => none
        | e :: rest1 =>
          if e = 0x22 ∨ e = 0x5C ∨ e = 0x2F then consChunk [e] (unquoteLoop n rest1)
          else if e = 0x62 then consChunk [0x08] (unquoteLoop n rest1)
          else if e = 0x66 then consChunk [0x0C] (unquoteLoop n rest1)
          else if e = 0x6E then consChunk [0x0A] (unquoteLoop n rest1)
          else if e = 0x72 then consChunk [0x0D] (unquoteLoop n rest1)
          else if e = 0x74 then consChunk [0x09] (unquoteLoop n rest1)
          else if e = 0x75 then
            match hex4 rest1 with
            | none => none
            | some rr =>
              let rest2 := rest1.drop 4
              if 0xD800 ≤ rr ∧ rr < 0xE000 then
                match getu4 rest2 with
                | some rr1 =>
                  if rr < 0xDC00 ∧ 0xDC00 ≤ rr1 ∧ rr1 < 0xE000 then
                    consChunk (encodeRune ((rr - 0xD800) * 1024 + (rr1 - 0xDC00) + 0x10000))
                      (unquoteLoop n (rest2.drop 6))
                  else consChunk (encodeRune RuneError) (unquoteLoop n rest2)
                | none => consChunk (encodeRune RuneError) (unquoteLoop n rest2)
              else consChunk (encodeRune rr) (unquoteLoop n rest2)
          else none
      else if c < 0x20 then none
      else if c < 0x80 then consChunk [c] (unquoteLoop n rest)
      else
        let d := decodeRune (c :: rest)
        consChunk (encodeRune d.1) (unquoteLoop n ((c :: rest).drop d.2))

/-- A string literal after its opening quote. -/
def parseStringLit (s : Bytes) : Option (Bytes × Bytes) := unquoteLoop (s.length + 1) s

/-- The scanner's `'0' ≤ c ≤ '9'`. -/
def isDigit (c : Nat) : Bool := decide (0x30 ≤ c) && decide (c ≤ 0x39)

/-- Skip a run of digits. -/
def skipDigits : Bytes → Bytes
  | [] => []
  | c :: rest => if isDigit c then skipDigits rest else c :: rest

/-- One or more digits. -/
def digits1 (s : Bytes) : Option Bytes :=
  match s with
  | c :: rest => if isDigit c then some (skipDigits rest) else none
  | [] => none

/-- The scanner's states `stateDot` .. `stateE0`: the optional fraction and
exponent of a number. -/
def parseFracExp (s : Bytes) : Option Bytes :=
  let afterFrac : Option Bytes :=
    match s with
    | 0x2E :: rest => digits1 rest
    | _ => some s
  match afterFrac with
  | none => none
  | some s1 =>
    match s1 with
    | c :: rest =>
      if c = 0x65 ∨ c = 0x45 then
        match rest with
        | sg :: rest1 => if sg = 0x2B ∨ sg = 0x2D then digits1 rest1 else digits1 rest
        | [] => none
      else some s1
    | [] => some s1

/-- The scanner's number states: the input after a number literal that starts
at `s`, or `none` when no valid number starts there. -/
def parseNumber (s : Bytes) : Option Bytes :=
  let afterSign : Bytes :=
    match s with
    | 0x2D :: rest => rest
    | _ => s
  match afterSign with
  | c :: rest =>
    if c = 0x30 then parseFracExp rest
    else if isDigit c then parseFracExp (skipDigits rest)
    else none
  | [] => none

/-- The input after the literal `lit` when `s` starts with it. -/
def expectLit (lit : Bytes) (s : Bytes) : Option Bytes :=
  if lit.isPrefixOf s then some (s.drop lit.length) else none

/-- What the parser is reading: a value, the members of an object (at a key),
or the items of an array (at an item). -/
inductive Mode where
  | value
  | members (acc : List (Bytes × JValue))
  | items (acc : List JValue)

/-- The JSON grammar accepted by the scanner (scanner.go), as a recursive
descent. `parse fuel depth mode s`: `fuel` bounds the recursion, `depth` is the
number of further nesting levels allowed (`maxNestingDepth`). `none` is an
error of the scanner. With `2 * s.length + 1` as fuel for a value the bound is
never reached (`parse_fuel`). -/
def parse : Nat → Nat → Mode → Bytes → Option (JValue × Bytes)
  | 0, _, _, _ => none
  | fuel + 1, depth, Mode.value, s =>
    match skipWs s with
    | [] => none
    | c :: rest =>
      if c = 0x22 then
        (parseStringLit rest).map (fun p => (JValue.string p.1, p.2))
      else if c = 0x7B then
        match depth with
        | 0 => none
        | depth1 + 1 =>
          match skipWs rest with
          | 0x7D :: rest1 => some (JValue.object [], rest1)
          | rest1 => parse fuel depth1 (Mode.members []) rest1
      else if c = 0x5B then
        match depth with
        | 0 => none
        | depth1 + 1 =>
          match skipWs rest with
          | 0x5D :: rest1 => some (JValue.array [], rest1)
          | rest1 => parse fuel depth1 (Mode.items []) rest1
      else if c = 0x74 then (expectLit (ascii "rue") rest).map (fun r => (JValue.bool true, r))
      else if c = 0x66 then (expectLit (ascii "alse") rest).map (fun r => (JValue.bool false, r))
      else if c = 0x6E then (expectLit (ascii "ull") rest).map (fun r => (JValue.null, r))
      else (parseNumber (c :: rest)).map (fun r => (JValue.number, r))
  | fuel + 1, depth, Mode.members acc, s =>
    match s with
    | 0x22 :: rest =>
      match parseStringLit rest with
      | none => none
      | some (key, rest1) =>
        match skipWs rest1 with
        | 0x3A :: rest2 =>
          match parse fuel depth Mode.value rest2 with
          | none => none
          | some (v, rest3) =>
            match skipWs rest3 with
            | 0x2C :: rest4 => parse fuel depth (Mode.members (acc ++ [(key, v)])) (skipWs rest4)
            | 0x7D :: rest4 => some (JValue.object (acc ++ [(key, v)]), rest4)
            | _ => none
        | _ => none
    | _ => none
  | fuel + 1, depth, Mode.items acc, s =>
    match parse fuel depth Mode.value s with
    | none => none
    | some (v, rest1) =>
      match skipWs rest1 with
      | 0x2C :: rest2 => parse fuel depth (Mode.items (acc ++ [v])) rest2
      | 0x5D :: rest2 => some (JValue.array (acc ++ [v]), rest2)
      | _ => none

/-- The errors `json.Unmarshal` returns here: `*json.SyntaxError` for input
that is not valid JSON, `*json.UnmarshalTypeError` for a JSON value that does
not fit the Go value it is decoded into. -/
inductive JsonError where
  | invalid
  | mismatch
  deriving DecidableEq, Repr

/-- Go `checkValid` followed by the parse of the whole input: one JSON value
surrounded by optional whitespace. -/
def parseJSON (data : Bytes) : Option JValue :=
  match parse (2 * data.length + 1) 10000 Mode.value data with
  | none => none
  | some (v, rest) => if (skipWs rest).isEmpty then some v else none

/-- ASCII upper-casing of one byte. -/
def upperByte (b : Nat) : Nat := if 0x61 ≤ b ∧ b ≤ 0x7A then b - 0x20 else b

/-- The decoder's field lookup for an object key: an exact match, else a
case-insensitive one. For the names `CID` and `UID` the case-insensitive match
is equality after ASCII upper-casing. -/
def keyMatches (key : Bytes) (name : String) : Bool :=
  decide (key = ascii name) || decide (key.map upperByte = ascii name)

/-- The decoder's `literalStore` and `saveError` for a value decoded into a
`string` field: a JSON string is stored, `null` leaves the field as it is,
anything else records an `UnmarshalTypeError` (the first one is kept) and
decoding goes on. -/
def storeString (v : JValue) (old : Bytes) (saved : Option JsonError) : Bytes × Option JsonError :=
  match v with
  | JValue.string s => (s, saved)
  | JValue.null => (old, saved)
  | _ => (old, saved.orElse (fun _ => some JsonError.mismatch))

/-- One member of the object decoded into the struct: the decoder's `object`
loop body. A key that matches no field is skipped. -/
def storeMember (st : PatientContainer × Option JsonError) (m : Bytes × JValue) :
    PatientContainer × Option JsonError :=
  if keyMatches m.1 "CID" then
    let r := storeString m.2 st.1.CID st.2
    ({ st.1 with CID := r.1 }, r.2)
  else if keyMatches m.1 "UID" then
    let r := storeString m.2 st.1.UID st.2
    ({ st.1 with UID := r.1 }, r.2)
  else st

/-- Go `json.Unmarshal(data, &asset)` with `var asset PatientContainer`: the
decoded record, or the error. -/
def Unmarshal (data : Bytes) : Except JsonError PatientContainer :=
  match parseJSON data with
  | none => Except.error JsonError.invalid
  | some (JValue.object ms) =>
    match ms.foldl storeMember (⟨[], []⟩, none) with
    | (asset, none) => Except.ok asset
    | (_, some e) => Except.error e
  | some JValue.null => Except.ok ⟨[], []⟩
  | some _ => Except.error JsonError.mismatch

/-- Whether a JSON value can be decoded into a `string` field without an
error: a string, or `null`. -/
def isStringOrNull : JValue → Bool
  | JValue.string _ => true
  | JValue.null => true
  | _ => false

/-- A member of a JSON object that the record cannot take: its key names the
field `CID` or `UID`, in any letter case, and its value is neither a string nor
`null`. -/
def badMember (m : Bytes × JValue) : Bool :=
  (keyMatches m.1 "CID" || keyMatches m.1 "UID") && !isStringOrNull m.2

/-- The string that a JSON object with the members `ms` gives the field
`name`: the value of the last member whose key names the field, in any letter
case, and whose value is a string; the empty string when there is none. -/
def fieldOf (name : String) (ms : List (Bytes × JValue)) : Bytes :=
  ((ms.filterMap (fun m =>
    if keyMatches m.1 name then
      (match m.2 with
       | JValue.string s => some s
       | _ => none)
    else none)).getLast?).getD []

/-! ## The chaincode stub, as the contract sees it -/

/-- The Go `error` values the contract returns. -/
inductive Error where
  /-- An error built by `fmt.Errorf`, given by its message. -/
  | errorf (msg : Bytes)
  /-- An error of `encoding/json`, returned as it is. -/
  | json (e : JsonError)
  /-- An error of the stub, returned as it is; given by its message. -/
  | host (msg : Bytes)
  /-- The run-time panic of a method call on a nil iterator. -/
  | nilDereference
  /-- A run-time panic raised inside a call of the stub. -/
  | stubPanic
  deriving DecidableEq, Repr

/-- The shim's `queryresult.KeyModification`: one entry of the history of a
key. `TxId` and `Timestamp` are left out, the contract does not read them. -/
structure KeyModification where
  Value : Bytes
  IsDelete : Bool
  deriving DecidableEq, Repr

/-- The shim's `queryresult.KV`: one entry of a range query. -/
structure KV where
  Key : Bytes
  Value : Bytes
  deriving DecidableEq, Repr

/-- An iterator of the shim: the results of its successive `Next()` calls;
`HasNext()` holds while results remain. A failing `Next()` carries the
message of its error. -/
abbrev Iterator (α : Type) := List (Except Bytes α)

/-- What a call of the stub does: it returns a value, it returns an error
(given by its message), or it panics and does not return. -/
inductive Answer (α : Type) where
  | ok (a : α)
  | error (msg : Bytes)
  | panic
  deriving DecidableEq, Repr

/-- What `ctx.GetStub()` answers during one transaction. A returned `nil`
(value or iterator) is `none`. -/
structure Stub where
  GetState : Bytes → Answer (Option Bytes)
  PutState : Bytes → Bytes → Answer Unit
  DelState : Bytes → Answer Unit
  GetHistoryForKey : Bytes → Answer (Option (Iterator KeyModification))
  GetStateByRange : Bytes → Bytes → Answer (Option (Iterator KV))

/-- A write the transaction hands to the stub: an accepted `PutState` or
`DelState` call. -/
inductive Write where
  | put (key value : Bytes)
  | del (key : Bytes)
  deriving DecidableEq, Repr

/-- The outcome of a contract function: what it returns, and the writes it
made through the stub, in call order. -/
abbrev Outcome (α : Type) := Except Error α × List Write

/-- The message of the not-found error, `fmt.Errorf("the asset %s does not exist", uid)`. -/
def notFound (uid : Bytes) : Error :=
  Error.errorf (ascii "the asset " ++ uid ++ ascii " does not exist")

/-- The read-failure error, `fmt.Errorf("failed to read from world state: %v", err)`. -/
def readFailed (err : Bytes) : Error :=
  Error.errorf (ascii "failed to read from world state: " ++ err)

/-! ## The contract (`smartcontract.go`) -/

/-- `SmartContract.CreateOrUpdateContainer`. -/
def CreateOrUpdateContainer (stub : Stub) (uid cid : Bytes) : Outcome Unit :=
  let asset : PatientContainer := { CID := cid, UID := uid }
  let assetJSON := Marshal asset
  match stub.PutState uid assetJSON with
  | Answer.panic => (Except.error Error.stubPanic, [])
  | Answer.error err => (Except.error (Error.host err), [])
  | Answer.ok _ => (Except.ok (), [Write.put uid assetJSON])

/-- `SmartContract.ReadContainer`. -/
def ReadContainer (stub : Stub) (uid : Bytes) : Outcome PatientContainer :=
  match stub.GetState uid with
  | Answer.panic => (Except.error Error.stubPanic, [])
  | Answer.error err => (Except.error (readFailed err), [])
  | Answer.ok none => (Except.error (notFound uid), [])
  | Answer.ok (some assetJSON) =>
    match Unmarshal assetJSON with
    | Except.error err => (Except.error (Error.json err), [])
    | Except.ok asset => (Except.ok asset, [])

/-- `SmartContract.ContainerExists`. -/
def ContainerExists (stub : Stub) (uid : Bytes) : Outcome Bool :=
  match stub.GetState uid with
  | Answer.panic => (Except.error Error.stubPanic, [])
  | Answer.error err => (Except.error (readFailed err), [])
  | Answer.ok assetJSON => (Except.ok assetJSON.isSome, [])

/-- `SmartContract.DeleteContainer`. -/
def DeleteContainer (stub : Stub) (uid : Bytes) : Outcome Unit :=
  match ContainerExists stub uid with
  | (Except.error err, ws) => (Except.error err, ws)
  | (Except.ok false, ws) => (Except.error (notFound uid), ws)
  | (Except.ok true, ws) =>
    match stub.DelState uid with
    | Answer.panic => (Except.error Error.stubPanic, ws)
    | Answer.error err => (Except.error (Error.host err), ws)
    | Answer.ok _ => (Except.ok (), ws ++ [Write.del uid])

/-- The loop `for historyIterator.HasNext()` of `ReadContainerHistory` and of
`GetAllContainersHistory`: every entry is decoded and appended to `assets`; the
first failing `Next()` or `json.Unmarshal` ends the call with its error. -/
def historyLoop : Iterator KeyModification → List PatientContainer →
    Except Error (List PatientContainer)
  | [], assets => Except.ok assets
  | Except.error err :: _, _ => Except.error (Error.host err)
  | Except.ok modification :: rest, assets =>
    match Unmarshal modification.Value with
    | Except.error err => Except.error (Error.json err)
    | Except.ok asset => historyLoop rest (assets ++ [asset])

/-- `SmartContract.ReadContainerHistory`. -/
def ReadContainerHistory (stub : Stub) (uid : Bytes) : Outcome (List PatientContainer) :=
  match stub.GetHistoryForKey uid with
  | Answer.panic => (Except.error Error.stubPanic, [])
  | Answer.error err => (Except.error (Error.host err), [])
  | Answer.ok none => (Except.error (notFound uid), [])
  | Answer.ok (some historyIterator) => (historyLoop historyIterator [], [])

/-- The loop `for resultsIterator.HasNext()` of `GetAllContainers`. -/
def resultsLoop : Iterator KV → List PatientContainer → Except Error (List PatientContainer)
  | [], assets => Except.ok assets
  | Except.error err :: _, _ => Except.error (Error.host err)
  | Except.ok queryResponse :: rest, assets =>
    match Unmarshal queryResponse.Value with
    | Except.error err => Except.error (Error.json err)
    | Except.ok asset => resultsLoop rest (assets ++ [asset])

/-- `SmartContract.GetAllContainers`. The iterator is closed before it is
tested, so a nil iterator is a run-time panic. -/
def GetAllContainers (stub : Stub) : Outcome (List PatientContainer) :=
  match stub.GetStateByRange [] [] with
  | Answer.panic => (Except.error Error.stubPanic, [])
  | Answer.error err => (Except.error (Error.host err), [])
  | Answer.ok none => (Except.error Error.nilDereference, [])
  | Answer.ok (some resultsIterator) => (resultsLoop resultsIterator [], [])

/-- The outer loop of `GetAllContainersHistory`: for every entry of the range,
the history of the key `asset.UID` decoded from the entry's value. -/
def resultsHistoryLoop (stub : Stub) : Iterator KV → List (List PatientContainer) →
    Except Error (List (List PatientContainer))
  | [], assets => Except.ok assets
  | Except.error err :: _, _ => Except.error (Error.host err)
  | Except.ok queryResponse :: rest, assets =>
    match Unmarshal queryResponse.Value with
    | Except.error err => Except.error (Error.json err)
    | Except.ok asset =>
      let assetid := asset.UID
      match stub.GetHistoryForKey assetid with
      | Answer.panic => Except.error Error.stubPanic
      | Answer.error err => Except.error (Error.host err)
      | Answer.ok none => Except.error Error.nilDereference
      | Answer.ok (some historyIterator) =>
        match historyLoop historyIterator [] with
        | Except.error err => Except.error err
        | Except.ok assethistory => resultsHistoryLoop stub rest (assets ++ [assethistory])

/-- `SmartContract.GetAllContainersHistory`. -/
def GetAllContainersHistory (stub : Stub) : Outcome (List (List PatientContainer)) :=
  match stub.GetStateByRange [] [] with
  | Answer.panic => (Except.error Error.stubPanic, [])
  | Answer.error err => (Except.error (Error.host err), [])
  | Answer.ok none => (Except.error Error.nilDereference, [])
  | Answer.ok (some resultsIterator) => (resultsHistoryLoop stub resultsIterator [], [])

/-! ## The host: a Fabric ledger

The contract runs against the chaincode shim of Hyperledger Fabric, which is
outside the repository. The model below follows the shim's documented
behaviour (`shim/interfaces.go`, `shim/stub.go`, `shim/handler.go`):

* every call sends its key to the peer in a protobuf message, as a field of
  type `string`, and the shim panics when it cannot marshal the message
  (`marshalOrPanic`), which is the case for a key that is not valid UTF-8. So
  every call that takes a key panics on a key that is not valid UTF-8, and no
  such key is ever stored;
* `GetState` returns `nil, nil` for a key that is not in the state database;
* `PutState` rejects the empty key with an error, before it looks at anything
  else. A write reaches the ledger when the transaction commits, and reads of
  a transaction see the committed state;
* `GetStateByRange` iterates the keys in lexical (byte) order; an empty start
  key stands for `"\x01"`, so keys in the composite-key namespace (first byte
  `0x00`) are not part of an open-ended range;
* `GetHistoryForKey` always hands back an iterator (never `nil`) over the
  committed modifications of the key; a deletion is a modification with
  `IsDelete = true` and no value; the order is oldest first before Fabric 2.0
  and newest first from 2.0 on, so it is a parameter of the ledger;
* a transaction whose function returns an error commits nothing.
-/

/-- Go's `<` on strings: byte-wise lexicographic order. -/
def bytesLt : Bytes → Bytes → Bool
  | _, [] => false
  | [], _ :: _ => true
  | a :: as, b :: bs => if a < b then true else if b < a then false else bytesLt as bs

/-- The value stored under `key`, `none` when there is none. -/
def getKey (key : Bytes) : List (Bytes × Bytes) → Option Bytes
  | [] => none
  | (k, v) :: rest => if key = k then some v else getKey key rest

/-- Store `value` under `key`, replacing a value already there and keeping
the keys in order. -/
def putKey (key value : Bytes) : List (Bytes × Bytes) → List (Bytes × Bytes)
  | [] => [(key, value)]
  | (k, v) :: rest =>
    if key = k then (key, value) :: rest
    else if bytesLt key k then (key, value) :: (k, v) :: rest
    else (k, v) :: putKey key value rest

/-- Remove `key`. -/
def delKey (key : Bytes) (w : List (Bytes × Bytes)) : List (Bytes × Bytes) :=
  w.filter (fun e => decide (e.1 ≠ key))

/-- A ledger: the world state (current value of every key, in key order), the
history database (every committed modification with its key, in commit order),
and the order in which the peer iterates the history of a key. -/
structure Ledger where
  world : List (Bytes × Bytes)
  history : List (Bytes × KeyModification)
  newestFirst : Bool
  deriving DecidableEq, Repr

/-- The ledger before any transaction. -/
def Ledger.empty (newestFirst : Bool) : Ledger := ⟨[], [], newestFirst⟩

/-- The modifications of `key`, in the order the history iterator yields them. -/
def Ledger.historyFor (l : Ledger) (key : Bytes) : List KeyModification :=
  let entries := (l.history.filter (fun e => decide (e.1 = key))).map (fun e => e.2)
  if l.newestFirst then entries.reverse else entries

/-- A key outside the composite-key namespace: its first byte is not `0x00`. -/
def simpleKey (key : Bytes) : Bool :=
  match key with
  | 0 :: _ => false
  | _ => true

/-- The shim's `validateSimpleKeys`: the message of the error for the first
key that lies in the composite-key namespace, `none` when there is none. -/
def validateSimpleKeys : List Bytes → Option Bytes
  | [] => none
  | key :: keys =>
    if simpleKey key then validateSimpleKeys keys
    else some (ascii "first character of the key [" ++ key
      ++ ascii "] contains a null character which is not allowed")

/-- The stub of a transaction that runs on the committed ledger `l`. -/
def Ledger.stub (l : Ledger) : Stub where
  GetState key :=
    if utf8Valid key then Answer.ok (getKey key l.world)
    else Answer.panic
  PutState key _ :=
    if key = [] then Answer.error (ascii "key must not be an empty string")
    else if utf8Valid key then Answer.ok ()
    else Answer.panic
  DelState key :=
    if utf8Valid key then Answer.ok ()
    else Answer.panic
  GetHistoryForKey key :=
    if utf8Valid key then Answer.ok (some ((l.historyFor key).map Except.ok))
    else Answer.panic
  GetStateByRange startKey endKey :=
    let start := if startKey = [] then [0x01] else startKey
    match validateSimpleKeys [start, endKey] with
    | some err => Answer.error err
    | none =>
      if utf8Valid start && utf8Valid endKey then
        Answer.ok (some ((l.world.filter (fun e =>
          !bytesLt e.1 start && (decide (endKey = []) || bytesLt e.1 endKey))).map
            (fun e => Except.ok ⟨e.1, e.2⟩)))
      else Answer.panic

/-- Commit one write: the world state changes, the history database gets one
more modification of the key. -/
def Ledger.apply (l : Ledger) : Write → Ledger
  | Write.put key value =>
    { l with world := putKey key value l.world
             history := l.history ++ [(key, ⟨value, false⟩)] }
  | Write.del key =>
    { l with world := delKey key l.world
             history := l.history ++ [(key, ⟨[], true⟩)] }

/-- Commit the writes of a transaction. -/
def Ledger.commit (l : Ledger) (ws : List Write) : Ledger := ws.foldl Ledger.apply l

/-- Run a contract function as a transaction on `l`: its result and the ledger
afterwards. The writes are committed when the function returns no error. -/
def Ledger.invoke {α : Type} (l : Ledger) (f : Stub → Outcome α) : Except Error α × Ledger :=
  match f l.stub with
  | (Except.ok a, ws) => (Except.ok a, l.commit ws)
  | (Except.error err, _) => (Except.error err, l)

/-- The ledger after the transaction `f`, when `f` succeeded. -/
def Ledger.after {α : Type} (l : Ledger) (f : Stub → Outcome α) : Option Ledger :=
  match l.invoke f with
  | (Except.ok _, l1) => some l1
  | (Except.error _, _) => none

/-! ## Sequences of transactions -/

/-- The ledger after the successive successful writes
`CreateOrUpdateContainer(uid, cid)` for the `cid` of `cids`, in order; `none`
when one of them fails. -/
def writeAll (l : Ledger) (uid : Bytes) : List Bytes → Option Ledger
  | [] => some l
  | cid :: cids =>
    match l.after (fun s => CreateOrUpdateContainer s uid cid) with
    | none => none
    | some l1 => writeAll l1 uid cids

/-- The ledgers reached from an empty one by successful
`CreateOrUpdateContainer` and `DeleteContainer` transactions whose created
uids all satisfy `p`. -/
inductive ReachableBy (p : Bytes → Bool) : Ledger → Prop where
  | empty (newestFirst : Bool) : ReachableBy p (Ledger.empty newestFirst)
  | create {l l1 : Ledger} (uid cid : Bytes) : ReachableBy p l → p uid = true →
      l.after (fun s => CreateOrUpdateContainer s uid cid) = some l1 → ReachableBy p l1
  | delete {l l1 : Ledger} (uid : Bytes) : ReachableBy p l →
      l.after (fun s => DeleteContainer s uid) = some l1 → ReachableBy p l1

/-- The ledgers reached from an empty one by successful
`CreateOrUpdateContainer` and `DeleteContainer` transactions. -/
def Reachable (l : Ledger) : Prop := ReachableBy (fun _ => true) l

/-- A valid multi-byte rune of width `sz` starts `p`: `decodeRune` reports the
width, `encodeRune` gives back the same bytes, and the bytes that follow do not
matter. -/
def GoodRune (p : Bytes) (sz : Nat) : Prop :=
  2 ≤ sz ∧ sz ≤ p.length ∧ (decodeRune p).2 = sz ∧
    encodeRune (decodeRune p).1 = p.take sz ∧
    ∀ q, decodeRune (p.take sz ++ q) = decodeRune p

/-- A bound that `parse` never reaches on the input `s`. -/
def fuelFor (mode : Mode) (s : Bytes) : Nat :=
  match mode with
  | Mode.value => 2 * s.length + 1
  | _ => 2 * s.length + 2

/-! ## Lemmas -/

theorem leadInfo_some {p0 sz lo hi : Nat} (h : leadInfo p0 = some (sz, lo, hi)) :
    0xC2 ≤ p0 ∧ p0 ≤ 0xF4 ∧ 0x80 ≤ lo ∧ hi ≤ 0xBF ∧
    ((sz = 2 ∧ p0 ≤ 0xDF) ∨
     (sz = 3 ∧ 0xE0 ≤ p0 ∧ p0 ≤ 0xEF ∧ (p0 = 0xE0 → 0xA0 ≤ lo) ∧ (p0 = 0xED → hi ≤ 0x9F)) ∨
     (sz = 4 ∧ 0xF0 ≤ p0 ∧ (p0 = 0xF0 → 0x90 ≤ lo) ∧ (p0 = 0xF4 → hi ≤ 0x8F))) := by
  unfold leadInfo at h
  split_ifs at h <;> simp only [Option.some.injEq, Prod.mk.injEq] at h <;> omega

theorem decodeRune_two {b b1 lo hi : Nat} {r : Bytes} (hb : ¬ b < 0x80)
    (hl : leadInfo b = some (2, lo, hi)) :
    decodeRune (b :: b1 :: r) = (RuneError, 1) ∨ GoodRune (b :: b1 :: r) 2 := by
  have hinfo := leadInfo_some hl
  by_cases hc : b1 < lo ∨ hi < b1
  · left; simp [decodeRune, hb, hl, hc]
  · right
    have hd : ∀ q, decodeRune (b :: b1 :: q) = ((b % 32) * 64 + b1 % 64, 2) := by
      intro q; simp [decodeRune, hb, hl, hc]
    refine ⟨le_refl _, by simp, by rw [hd], ?_, fun q => by simp [hd]⟩
    rw [hd]
    simp only [encodeRune, List.take_succ_cons, List.take_zero]
    rw [if_neg (by omega), if_pos (by omega)]
    congr 1
    · omega
    · congr 1; omega

theorem decodeRune_three {b b1 b2 lo hi : Nat} {r : Bytes} (hb : ¬ b < 0x80)
    (hl : leadInfo b = some (3, lo, hi)) :
    decodeRune (b :: b1 :: b2 :: r) = (RuneError, 1) ∨ GoodRune (b :: b1 :: b2 :: r) 3 := by
  have hinfo := leadInfo_some hl
  by_cases hc : b1 < lo ∨ hi < b1
  · left; simp [decodeRune, hb, hl, hc]
  by_cases hc2 : b2 < 0x80 ∨ 0xBF < b2
  · left; simp [decodeRune, hb, hl, hc, hc2]
  · right
    have hd : ∀ q, decodeRune (b :: b1 :: b2 :: q) =
        ((b % 16) * 4096 + (b1 % 64) * 64 + b2 % 64, 3) := by
      intro q; simp [decodeRune, hb, hl, hc, hc2]
    refine ⟨by omega, by simp, by rw [hd], ?_, fun q => by simp [hd]⟩
    rw [hd]
    simp only [encodeRune, List.take_succ_cons, List.take_zero]
    rw [if_neg (by omega), if_neg (by omega), if_neg (by omega), if_pos (by omega)]
    congr 1
    · omega
    · congr 1
      · omega
      · congr 1; omega

theorem decodeRune_four {b b1 b2 b3 lo hi : Nat} {r : Bytes} (hb : ¬ b < 0x80)
    (hl : leadInfo b = some (4, lo, hi)) :
    decodeRune (b :: b1 :: b2 :: b3 :: r) = (RuneError, 1) ∨
      GoodRune (b :: b1 :: b2 :: b3 :: r) 4 := by
  have hinfo := leadInfo_some hl
  by_cases hc : b1 < lo ∨ hi < b1
  · left; simp [decodeRune, hb, hl, hc]
  by_cases hc2 : b2 < 0x80 ∨ 0xBF < b2
  · left; simp [decodeRune, hb, hl, hc, hc2]
  by_cases hc3 : b3 < 0x80 ∨ 0xBF < b3
  · left; simp [decodeRune, hb, hl, hc, hc2, hc3]
  · right
    have hd : ∀ q, decodeRune (b :: b1 :: b2 :: b3 :: q) =
        ((b % 8) * 262144 + (b1 % 64) * 4096 + (b2 % 64) * 64 + b3 % 64, 4) := by
      intro q; simp [decodeRune, hb, hl, hc, hc2, hc3]
    refine ⟨by omega, by simp, by rw [hd], ?_, fun q => by simp [hd]⟩
    rw [hd]
    simp only [encodeRune, List.take_succ_cons, List.take_zero]
    rw [if_neg (by omega), if_neg (by omega), if_neg (by omega), if_neg (by omega)]
    congr 1
    · omega
    · congr 1
      · omega
      · congr 1
        · omega
        · congr 1; omega

theorem decodeRune_spec (b : Nat) (rest : Bytes) (hb : ¬ b < 0x80) :
    decodeRune (b :: rest) = (RuneError, 1) ∨ ∃ sz, GoodRune (b :: rest) sz := by
  cases hl : leadInfo b with
  | none => left; simp [decodeRune, hb, hl]
  | some t =>
    obtain ⟨sz, lo, hi⟩ := t
    have hinfo := leadInfo_some hl
    rcases hinfo with ⟨_, _, _, _, ⟨rfl, _⟩ | ⟨rfl, _⟩ | ⟨rfl, _⟩⟩
    · match rest with
      | [] => left; simp [decodeRune, hb, hl]
      | b1 :: r => exact (decodeRune_two hb hl).imp id (fun h => ⟨2, h⟩)
    · match rest with
      | [] => left; simp [decodeRune, hb, hl]
      | [b1] => left; simp [decodeRune, hb, hl]
      | b1 :: b2 :: r => exact (decodeRune_three hb hl).imp id (fun h => ⟨3, h⟩)
    · match rest with
      | [] => left; simp [decodeRune, hb, hl]
      | [b1] => left; simp [decodeRune, hb, hl]
      | [b1, b2] => left; simp [decodeRune, hb, hl]
      | b1 :: b2 :: b3 :: r => exact (decodeRune_four hb hl).imp id (fun h => ⟨4, h⟩)

theorem decodeRune_take4 (p : Bytes) : decodeRune (p.take 4) = decodeRune p := by
  match p with
  | [] => rfl
  | [_] => rfl
  | [_, _] => rfl
  | [_, _, _] => rfl
  | b :: b1 :: b2 :: b3 :: r =>
    simp only [List.take_succ_cons, List.take_zero]
    by_cases hb : b < 0x80
    · simp [decodeRune, hb]
    cases hl : leadInfo b with
    | none => simp [decodeRune, hb, hl]
    | some t =>
      obtain ⟨sz, lo, hi⟩ := t
      have hinfo := leadInfo_some hl
      rcases hinfo with ⟨_, _, _, _, ⟨rfl, _⟩ | ⟨rfl, _⟩ | ⟨rfl, _⟩⟩ <;>
        (simp [decodeRune, hb, hl]
         exact (if_neg (by omega)).symm)


theorem hexVal_hexDigit {x : Nat} (h : x < 16) : hexVal (hexDigit x) = some x := by
  interval_cases x <;> rfl

theorem ascii_fffd : ascii "\\ufffd" = [0x5C, 0x75, 0x66, 0x66, 0x66, 0x64] := rfl
theorem ascii_u202 : ascii "\\u202" = [0x5C, 0x75, 0x32, 0x30, 0x32] := rfl

theorem consChunk_some (c a r : Bytes) : consChunk c (some (a, r)) = some (c ++ a, r) := rfl

theorem unquote_safe {b : Nat} (hb : b < 0x80) (hs : htmlSafe b = true) (n : Nat) (tail : Bytes) :
    unquoteLoop (n + 1) (b :: tail) = consChunk [b] (unquoteLoop n tail) := by
  simp only [htmlSafe, Bool.and_eq_true, decide_eq_true_eq, Bool.not_eq_true', Bool.or_eq_false_iff,
    decide_eq_false_iff_not] at hs
  obtain ⟨⟨h1, _⟩, ⟨⟨⟨h2, h3⟩, _⟩, _⟩, _⟩ := hs
  simp only [unquoteLoop]
  rw [if_neg h2, if_neg h3, if_neg (by omega), if_pos hb]

theorem hex4_byte {b : Nat} (hb : b < 0x80) (tail : Bytes) :
    hex4 (0x30 :: 0x30 :: hexDigit (b / 16) :: hexDigit (b % 16) :: tail) = some b := by
  simp only [hex4]
  rw [hexVal_hexDigit (by omega), hexVal_hexDigit (by omega)]
  have h0 : hexVal 0x30 = some 0 := rfl
  rw [h0]
  simp only [Option.some.injEq]
  omega

theorem unquote_escapeU {b : Nat} (hb : b < 0x80) (n : Nat) (tail : Bytes) :
    unquoteLoop (n + 1) ([0x5C, 0x75, 0x30, 0x30, hexDigit (b / 16), hexDigit (b % 16)] ++ tail)
      = consChunk [b] (unquoteLoop n tail) := by
  have hx := hex4_byte hb tail
  simp only [unquoteLoop, List.cons_append, List.nil_append]
  simp only [hx]
  have hns : ¬ (0xD800 ≤ b ∧ b < 0xE000) := by omega
  have he : encodeRune b = [b] := by simp only [encodeRune]; rw [if_pos (by omega)]
  simp [hns, he]

theorem unquote_escape {b : Nat} (hb : b < 0x80) (n : Nat) (tail : Bytes) :
    unquoteLoop (n + 1) (escapeByte b ++ tail) = consChunk [b] (unquoteLoop n tail) := by
  unfold escapeByte
  split_ifs with h1 h2 h3 h4 h5 h6
  · rcases h1 with rfl | rfl <;> simp [unquoteLoop]
  · subst h2; simp [unquoteLoop]
  · subst h3; simp [unquoteLoop]
  · subst h4; simp [unquoteLoop]
  · subst h5; simp [unquoteLoop]
  · subst h6; simp [unquoteLoop]
  · exact unquote_escapeU hb n tail

theorem unquote_fffd (n : Nat) (tail : Bytes) :
    unquoteLoop (n + 1) (ascii "\\ufffd" ++ tail)
      = consChunk [0xEF, 0xBF, 0xBD] (unquoteLoop n tail) := by
  rw [ascii_fffd]
  have hx : hex4 (0x66 :: 0x66 :: 0x66 :: 0x64 :: tail) = some 0xFFFD := rfl
  simp only [unquoteLoop, List.cons_append, List.nil_append]
  simp only [hx]
  have he : encodeRune 0xFFFD = [0xEF, 0xBF, 0xBD] := by decide
  simp [he]

theorem unquote_202x {r : Nat} (hr : r = 0x2028 ∨ r = 0x2029) (n : Nat) (tail : Bytes) :
    unquoteLoop (n + 1) (ascii "\\u202" ++ [hexDigit (r % 16)] ++ tail)
      = consChunk (encodeRune r) (unquoteLoop n tail) := by
  rw [ascii_u202]
  have hx : hex4 (0x32 :: 0x30 :: 0x32 :: hexDigit (r % 16) :: tail) = some r := by
    rcases hr with rfl | rfl <;> rfl
  simp only [unquoteLoop, List.cons_append, List.nil_append]
  simp only [hx]
  have hns : ¬ (0xD800 ≤ r ∧ r < 0xE000) := by omega
  simp [hns]


theorem unquote_raw {b : Nat} {rest : Bytes} {sz : Nat} (hb : ¬ b < 0x80)
    (hg : GoodRune (b :: rest) sz) (n : Nat) (tail : Bytes) :
    unquoteLoop (n + 1) ((b :: rest).take sz ++ tail)
      = consChunk ((b :: rest).take sz) (unquoteLoop n tail) := by
  obtain ⟨h2, hlen, hsz, henc, hdec⟩ := hg
  have hd := hdec tail
  obtain ⟨k, rfl⟩ : ∃ k, sz = k + 1 := ⟨sz - 1, by omega⟩
  rw [List.take_succ_cons] at hd ⊢
  rw [List.cons_append] at hd ⊢
  simp only [unquoteLoop]
  rw [if_neg (by omega), if_neg (by omega), if_neg (by omega), if_neg hb]
  simp only [hd, hsz, henc]
  congr 2
  have hl : (List.take k rest).length = k := by
    rw [List.length_take]; simp only [List.length_cons] at hlen; omega
  rw [List.drop_succ_cons, List.drop_left' hl]

theorem unquote_appendString (tail : Bytes) : ∀ (m : Nat) (s : Bytes), s.length ≤ m →
    ∀ n, (appendStringLoop m s).length < n →
      unquoteLoop n (appendStringLoop m s ++ 0x22 :: tail) = some (coerceLoop m s, tail) := by
  intro m
  induction m with
  | zero =>
    intro s _ n hn
    obtain ⟨k, rfl⟩ : ∃ k, n = k + 1 := ⟨n - 1, by omega⟩
    simp [appendStringLoop, coerceLoop, unquoteLoop]
  | succ m ih =>
    intro s hs n hn
    obtain ⟨k, rfl⟩ : ∃ k, n = k + 1 := ⟨n - 1, by omega⟩
    match s with
    | [] => simp [appendStringLoop, coerceLoop, unquoteLoop]
    | b :: rest =>
      simp only [List.length_cons, Nat.add_le_add_iff_right] at hs
      by_cases hb : b < 0x80
      · simp only [appendStringLoop, coerceLoop, hb, if_true] at hn ⊢
        cases hsafe : htmlSafe b with
        | true =>
          simp only [hsafe, if_true, List.cons_append, List.nil_append, List.length_cons] at hn ⊢
          rw [unquote_safe hb hsafe, ih rest hs k (by omega), consChunk_some]
          rfl
        | false =>
          simp only [hsafe, Bool.false_eq_true, if_false, List.append_assoc,
            List.length_append] at hn ⊢
          have hpos : 0 < (escapeByte b).length := by
            unfold escapeByte; split_ifs <;> simp
          rw [unquote_escape hb, ih rest hs k (by omega), consChunk_some]
          rfl
      · simp only [appendStringLoop, coerceLoop, hb, if_false, decodeRune_take4] at hn ⊢
        rcases decodeRune_spec b rest hb with herr | ⟨sz, hg⟩
        · simp only [herr, and_self, if_true, List.append_assoc, List.length_append] at hn ⊢
          have hl : (ascii "\\ufffd").length = 6 := rfl
          rw [unquote_fffd, ih rest hs k (by omega), consChunk_some]
        · have hg' := hg
          obtain ⟨h2, hlen, hsz, henc, hdec⟩ := hg
          have hne : ¬ ((decodeRune (b :: rest)).1 = RuneError ∧ sz = 1) := by omega
          have hne1 : ¬ (sz = 1) := by omega
          have hdl : (List.drop sz (b :: rest)).length ≤ m := by
            rw [List.length_drop]; simp only [List.length_cons] at hlen ⊢; omega
          simp only [hsz] at hn ⊢
          simp only [hne1, and_false, if_false] at hn ⊢
          by_cases hls : (decodeRune (b :: rest)).1 = 0x2028 ∨ (decodeRune (b :: rest)).1 = 0x2029
          · simp only [hls, if_true, List.append_assoc, List.length_append,
              List.length_singleton] at hn ⊢
            have hl : (ascii "\\u202").length = 5 := rfl
            rw [← List.append_assoc, unquote_202x hls, ih _ hdl k (by omega), consChunk_some, henc]
          · simp only [hls, if_false, List.append_assoc, List.length_append] at hn ⊢
            have htl : (List.take sz (b :: rest)).length = sz := by
              rw [List.length_take]; omega
            rw [unquote_raw hb hg', ih _ hdl k (by omega), consChunk_some]

theorem coerceLoop_valid : ∀ (m : Nat) (s : Bytes), validLoop m s = true → coerceLoop m s = s := by
  intro m
  induction m with
  | zero => intro s h; simp [validLoop] at h; simp [coerceLoop, h]
  | succ m ih =>
    intro s h
    match s with
    | [] => rfl
    | b :: rest =>
      by_cases hb : b < 0x80
      · simp only [validLoop, coerceLoop, hb, if_true] at h ⊢
        rw [ih rest h]
      · simp only [validLoop, coerceLoop, hb, if_false] at h ⊢
        by_cases h1 : (decodeRune (b :: rest)).2 = 1
        · simp [h1] at h
        · simp only [h1, if_false] at h ⊢
          rw [ih _ h, List.take_append_drop]

theorem coerceUTF8_valid {s : Bytes} (h : utf8Valid s = true) : coerceUTF8 s = s :=
  coerceLoop_valid _ _ h

/-- Decoding the string literal that `appendString` writes gives the string coerced to UTF-8. -/
theorem parseStringLit_appendString (s tail : Bytes) :
    parseStringLit (appendStringLoop s.length s ++ 0x22 :: tail) = some (coerceUTF8 s, tail) := by
  unfold parseStringLit coerceUTF8
  apply unquote_appendString tail s.length s (le_refl _)
  simp only [List.length_append, List.length_cons]
  omega


theorem Marshal_eq (c : PatientContainer) :
    Marshal c = 0x7B :: 0x22 :: 0x43 :: 0x49 :: 0x44 :: 0x22 :: 0x3A :: 0x22 ::
      (appendStringLoop c.CID.length c.CID ++ 0x22 :: 0x2C :: 0x22 :: 0x55 :: 0x49 :: 0x44 ::
        0x22 :: 0x3A :: 0x22 :: (appendStringLoop c.UID.length c.UID ++ 0x22 :: [0x7D])) := by
  have h1 : ascii "\x7b\"CID\":" = [0x7B, 0x22, 0x43, 0x49, 0x44, 0x22, 0x3A] := rfl
  have h2 : ascii ",\"UID\":" = [0x2C, 0x22, 0x55, 0x49, 0x44, 0x22, 0x3A] := rfl
  have h3 : ascii "\x7d" = [0x7D] := rfl
  simp only [Marshal, appendString, h1, h2, h3, List.cons_append, List.nil_append,
    List.append_assoc, List.singleton_append]

theorem parseStringLit_name (a b c : Nat) (tail : Bytes)
    (ha : htmlSafe a = true) (hb : htmlSafe b = true) (hc : htmlSafe c = true) :
    parseStringLit (a :: b :: c :: 0x22 :: tail) = some ([a, b, c], tail) := by
  have h := parseStringLit_appendString [a, b, c] tail
  have ha' : a < 0x80 := by
    simp only [htmlSafe, Bool.and_eq_true, decide_eq_true_eq] at ha; omega
  have hb' : b < 0x80 := by
    simp only [htmlSafe, Bool.and_eq_true, decide_eq_true_eq] at hb; omega
  have hc' : c < 0x80 := by
    simp only [htmlSafe, Bool.and_eq_true, decide_eq_true_eq] at hc; omega
  simpa [appendStringLoop, coerceUTF8, coerceLoop, ha, hb, hc, ha', hb', hc'] using h

theorem skipWs_quote (tail : Bytes) : skipWs (0x22 :: tail) = 0x22 :: tail := rfl
theorem skipWs_colon (tail : Bytes) : skipWs (0x3A :: tail) = 0x3A :: tail := rfl
theorem skipWs_comma (tail : Bytes) : skipWs (0x2C :: tail) = 0x2C :: tail := rfl
theorem skipWs_open (tail : Bytes) : skipWs (0x7B :: tail) = 0x7B :: tail := rfl
theorem skipWs_close (tail : Bytes) : skipWs (0x7D :: tail) = 0x7D :: tail := rfl

theorem parse_string_value (fuel depth : Nat) (s tail : Bytes) :
    parse (fuel + 1) depth Mode.value (0x22 :: (appendStringLoop s.length s ++ 0x22 :: tail))
      = some (JValue.string (coerceUTF8 s), tail) := by
  simp only [parse, skipWs_quote, if_true, parseStringLit_appendString, Option.map_some']

theorem parse_member_more (fuel depth : Nat) (acc : List (Bytes × JValue)) (a b c : Nat)
    (s tail : Bytes) (ha : htmlSafe a = true) (hb : htmlSafe b = true) (hc : htmlSafe c = true) :
    parse (fuel + 1 + 1) depth (Mode.members acc)
        (0x22 :: a :: b :: c :: 0x22 :: 0x3A :: 0x22 ::
          (appendStringLoop s.length s ++ 0x22 :: 0x2C :: tail))
      = parse (fuel + 1) depth
          (Mode.members (acc ++ [([a, b, c], JValue.string (coerceUTF8 s))])) (skipWs tail) := by
  rw [parse]
  simp only [parseStringLit_name _ _ _ _ ha hb hc, skipWs_colon, parse_string_value, skipWs_comma]

theorem parse_member_last (fuel depth : Nat) (acc : List (Bytes × JValue)) (a b c : Nat)
    (s tail : Bytes) (ha : htmlSafe a = true) (hb : htmlSafe b = true) (hc : htmlSafe c = true) :
    parse (fuel + 1 + 1) depth (Mode.members acc)
        (0x22 :: a :: b :: c :: 0x22 :: 0x3A :: 0x22 ::
          (appendStringLoop s.length s ++ 0x22 :: 0x7D :: tail))
      = some (JValue.object (acc ++ [([a, b, c], JValue.string (coerceUTF8 s))]), tail) := by
  rw [parse]
  simp only [parseStringLit_name _ _ _ _ ha hb hc, skipWs_colon, parse_string_value, skipWs_close]

theorem parse_Marshal (c : PatientContainer) (fuel : Nat) :
    parse (fuel + 1 + 1 + 1 + 1) 10000 Mode.value (Marshal c)
      = some (JValue.object [(ascii "CID", JValue.string (coerceUTF8 c.CID)),
          (ascii "UID", JValue.string (coerceUTF8 c.UID))], []) := by
  rw [Marshal_eq, parse]
  simp only [skipWs_open, skipWs_quote]
  have e1 : ((0x7B : Nat) = 0x22) = False := by decide
  simp only [e1, if_false, if_true]
  rw [parse_member_more (fuel + 1) 9999 [] 0x43 0x49 0x44 c.CID _ rfl rfl rfl]
  simp only [skipWs_quote, List.nil_append]
  rw [parse_member_last fuel 9999 _ 0x55 0x49 0x44 c.UID _ rfl rfl rfl]
  rfl

theorem Marshal_length (c : PatientContainer) : 3 ≤ (Marshal c).length := by
  rw [Marshal_eq]; simp only [List.length_cons]; omega

/-- Decoding what `json.Marshal` wrote gives the record back, with both fields
coerced to valid UTF-8. -/
theorem Unmarshal_Marshal (c : PatientContainer) :
    Unmarshal (Marshal c) = Except.ok ⟨coerceUTF8 c.CID, coerceUTF8 c.UID⟩ := by
  obtain ⟨k, hk⟩ : ∃ k, 2 * (Marshal c).length + 1 = k + 1 + 1 + 1 + 1 :=
    ⟨2 * (Marshal c).length - 3, by have := Marshal_length c; omega⟩
  simp only [Unmarshal, parseJSON, hk, parse_Marshal]
  rfl

theorem Unmarshal_nil : Unmarshal [] = Except.error JsonError.invalid := rfl


/-! ### The iteration bounds are never reached -/

theorem skipWs_length (s : Bytes) : (skipWs s).length ≤ s.length := by
  induction s with
  | nil => simp [skipWs]
  | cons c rest ih =>
    simp only [skipWs]
    split_ifs
    · simp only [List.length_cons]; omega
    · exact le_refl _

theorem skipDigits_length (s : Bytes) : (skipDigits s).length ≤ s.length := by
  induction s with
  | nil => simp [skipDigits]
  | cons c rest ih =>
    simp only [skipDigits]
    split_ifs
    · simp only [List.length_cons]; omega
    · exact le_refl _

theorem digits1_length {s r : Bytes} (h : digits1 s = some r) : r.length < s.length := by
  match s with
  | [] => simp [digits1] at h
  | c :: rest =>
    simp only [digits1] at h
    split_ifs at h
    simp only [Option.some.injEq] at h
    subst h
    have := skipDigits_length rest
    simp only [List.length_cons]; omega

theorem parseFracExp_length {s r : Bytes} (h : parseFracExp s = some r) :
    r.length ≤ s.length := by
  unfold parseFracExp at h
  simp only at h
  split at h
  · exact absurd h (by simp)
  · rename_i s1 hs1
    have hl : s1.length ≤ s.length := by
      split at hs1
      · have := digits1_length hs1
        simp only [List.length_cons]; omega
      · simp only [Option.some.injEq] at hs1; subst hs1; exact le_refl _
    split at h
    · rename_i c rest
      simp only [List.length_cons] at hl
      split_ifs at h
      · split at h
        · rename_i sg rest1
          simp only [List.length_cons] at hl
          split_ifs at h
          · have := digits1_length h; omega
          · have := digits1_length h; simp only [List.length_cons] at this; omega
        · exact absurd h (by simp)
      · simp only [Option.some.injEq] at h; subst h; simp only [List.length_cons]; omega
    · simp only [Option.some.injEq] at h; subst h; exact hl

theorem parseNumber_length {s r : Bytes} (h : parseNumber s = some r) :
    r.length < s.length := by
  unfold parseNumber at h
  simp only at h
  split at h
  · rename_i c rest hs
    have hl : rest.length < s.length := by
      split at hs
      · cases hs; simp only [List.length_cons]; omega
      · subst hs; simp
    split_ifs at h
    · have := parseFracExp_length h; omega
    · have := parseFracExp_length h
      have := skipDigits_length rest
      omega
  · exact absurd h (by simp)

theorem expectLit_length {lit s r : Bytes} (h : expectLit lit s = some r) :
    r.length ≤ s.length := by
  unfold expectLit at h
  split_ifs at h
  simp only [Option.some.injEq] at h
  subst h
  simp

theorem consChunk_eq_some {chunk a r : Bytes} {o : Option (Bytes × Bytes)}
    (h : consChunk chunk o = some (a, r)) : ∃ a1, o = some (a1, r) := by
  cases o with
  | none => simp [consChunk] at h
  | some p =>
    obtain ⟨a1, r1⟩ := p
    simp only [consChunk, Option.map_some', Option.some.injEq, Prod.mk.injEq] at h
    exact ⟨a1, by rw [h.2]⟩

theorem decodeRune_width_pos (c : Nat) (rest : Bytes) : 1 ≤ (decodeRune (c :: rest)).2 := by
  by_cases hc : c < 0x80
  · simp [decodeRune, hc]
  · rcases decodeRune_spec c rest hc with h | ⟨sz, h2, _, h3, _⟩
    · rw [h]
    · omega

theorem unquoteLoop_length : ∀ (n : Nat) (s a r : Bytes),
    unquoteLoop n s = some (a, r) → r.length < s.length := by
  intro n
  induction n with
  | zero => intro s a r h; simp [unquoteLoop] at h
  | succ n ih =>
    intro s a r h
    match s with
    | [] => simp [unquoteLoop] at h
    | c :: rest =>
      have step : ∀ (chunk t : Bytes), t.length ≤ rest.length →
          consChunk chunk (unquoteLoop n t) = some (a, r) → r.length < (c :: rest).length := by
        intro chunk t ht hc
        obtain ⟨a1, h1⟩ := consChunk_eq_some hc
        have := ih t a1 r h1
        simp only [List.length_cons]; omega
      by_cases h1 : c = 0x22
      · simp only [unquoteLoop, h1, if_true, Option.some.injEq, Prod.mk.injEq] at h
        rw [← h.2]; simp
      by_cases h2 : c = 0x5C
      · subst h2
        have h1' : ((0x5C : Nat) = 0x22) = False := by decide
        match rest with
        | [] => simp [unquoteLoop] at h
        | e :: rest1 =>
          have hd4 : (List.drop 4 rest1).length ≤ (e :: rest1).length := by
            simp only [List.length_drop, List.length_cons]; omega
          have hd6 : (List.drop 6 (List.drop 4 rest1)).length ≤ (e :: rest1).length := by
            simp only [List.length_drop, List.length_cons]; omega
          have hr1 : rest1.length ≤ (e :: rest1).length := by simp
          simp only [unquoteLoop, h1', eq_self_iff_true, if_false, if_true] at h
          by_cases e1 : e = 0x22 ∨ e = 0x5C ∨ e = 0x2F
          · simp only [e1, if_true] at h; exact step _ _ hr1 h
          by_cases e2 : e = 0x62
          · simp only [e1, e2, if_false, if_true] at h; exact step _ _ hr1 h
          by_cases e3 : e = 0x66
          · simp only [e1, e2, e3, if_false, if_true] at h; exact step _ _ hr1 h
          by_cases e4 : e = 0x6E
          · simp only [e1, e2, e3, e4, if_false, if_true] at h; exact step _ _ hr1 h
          by_cases e5 : e = 0x72
          · simp only [e1, e2, e3, e4, e5, if_false, if_true] at h; exact step _ _ hr1 h
          by_cases e6 : e = 0x74
          · simp only [e1, e2, e3, e4, e5, e6, if_false, if_true] at h; exact step _ _ hr1 h
          by_cases e7 : e = 0x75
          · simp only [e1, e2, e3, e4, e5, e6, if_false] at h
            rw [if_pos e7] at h
            cases hx : hex4 rest1 with
            | none => simp [hx] at h
            | some rr =>
              simp only [hx] at h
              by_cases hsur : 0xD800 ≤ rr ∧ rr < 0xE000
              · simp only [hsur, and_self, if_true] at h
                cases hg : getu4 (List.drop 4 rest1) with
                | none => simp only [hg] at h; exact step _ _ hd4 h
                | some rr1 =>
                  simp only [hg] at h
                  split_ifs at h
                  · exact step _ _ hd6 h
                  · exact step _ _ hd4 h
              · simp only [hsur, if_false] at h; exact step _ _ hd4 h
          · simp only [e1, e2, e3, e4, e5, e6, e7, if_false] at h
            exact absurd h (by simp)
      by_cases h3 : c < 0x20
      · simp [unquoteLoop, h1, h2, h3] at h
      by_cases h4 : c < 0x80
      · simp only [unquoteLoop, h1, h2, h3, h4, if_false, if_true] at h
        exact step _ _ (le_refl _) h
      · simp only [unquoteLoop, h1, h2, h3, h4, if_false] at h
        refine step _ _ ?_ h
        have := decodeRune_width_pos c rest
        simp only [List.length_drop, List.length_cons]
        omega

theorem parseStringLit_length {s a r : Bytes} (h : parseStringLit s = some (a, r)) :
    r.length < s.length := unquoteLoop_length _ s a r h


theorem parse_length : ∀ (fuel depth : Nat) (mode : Mode) (s : Bytes) (v : JValue) (r : Bytes),
    parse fuel depth mode s = some (v, r) → r.length < s.length := by
  intro fuel
  induction fuel with
  | zero => intro depth mode s v r h; simp [parse] at h
  | succ fuel ih =>
    intro depth mode s v r h
    cases mode with
    | value =>
      have hws := skipWs_length s
      cases hs : skipWs s with
      | nil => simp [parse, hs] at h
      | cons c rest =>
        rw [hs] at hws
        simp only [List.length_cons] at hws
        simp only [parse, hs] at h
        by_cases c1 : c = 0x22
        · simp only [c1, if_true] at h
          cases hp : parseStringLit rest with
          | none => simp [hp] at h
          | some p =>
            obtain ⟨a, r1⟩ := p
            simp only [hp, Option.map_some', Option.some.injEq, Prod.mk.injEq] at h
            have := parseStringLit_length hp
            rw [← h.2]; omega
        by_cases c2 : c = 0x7B
        · subst c2
          simp only [c1, if_false, if_true] at h
          cases depth with
          | zero => simp at h
          | succ depth1 =>
            simp only at h
            have hws2 := skipWs_length rest
            split at h
            · rename_i rest1 hr
              rw [hr] at hws2
              simp only [List.length_cons] at hws2
              simp only [Option.some.injEq, Prod.mk.injEq] at h
              rw [← h.2]; omega
            · have := ih _ _ _ _ _ h
              omega
        by_cases c3 : c = 0x5B
        · subst c3
          simp only [c1, c2, if_false, if_true] at h
          cases depth with
          | zero => simp at h
          | succ depth1 =>
            simp only at h
            have hws2 := skipWs_length rest
            split at h
            · rename_i rest1 hr
              rw [hr] at hws2
              simp only [List.length_cons] at hws2
              simp only [Option.some.injEq, Prod.mk.injEq] at h
              rw [← h.2]; omega
            · have := ih _ _ _ _ _ h
              omega
        simp only [c1, c2, c3, if_false] at h
        have lit : ∀ (l : Bytes) (w : JValue),
            Option.map (fun r => (w, r)) (expectLit l rest) = some (v, r) →
              r.length < s.length := by
          intro l w hl
          cases he : expectLit l rest with
          | none => simp [he] at hl
          | some r1 =>
            simp only [he, Option.map_some', Option.some.injEq, Prod.mk.injEq] at hl
            have := expectLit_length he
            rw [← hl.2]; omega
        split_ifs at h
        · exact lit _ _ h
        · exact lit _ _ h
        · exact lit _ _ h
        · cases hn : parseNumber (c :: rest) with
          | none => simp [hn] at h
          | some r1 =>
            simp only [hn, Option.map_some', Option.some.injEq, Prod.mk.injEq] at h
            have := parseNumber_length hn
            simp only [List.length_cons] at this
            rw [← h.2]; omega
    | members acc =>
      simp only [parse] at h
      split at h
      · rename_i rest
        split at h
        · exact absurd h (by simp)
        · rename_i key rest1 hp
          have l1 := parseStringLit_length hp
          have l2 := skipWs_length rest1
          split at h
          · rename_i rest2 hr2
            rw [hr2] at l2
            simp only [List.length_cons] at l2
            split at h
            · exact absurd h (by simp)
            · rename_i v1 rest3 hv
              have l3 := ih _ _ _ _ _ hv
              have l4 := skipWs_length rest3
              split at h
              · rename_i rest4 hr4
                rw [hr4] at l4
                simp only [List.length_cons] at l4
                have l5 := ih _ _ _ _ _ h
                have l6 := skipWs_length rest4
                simp only [List.length_cons]; omega
              · rename_i rest4 hr4
                rw [hr4] at l4
                simp only [List.length_cons] at l4
                simp only [Option.some.injEq, Prod.mk.injEq] at h
                rw [← h.2]
                simp only [List.length_cons]; omega
              · exact absurd h (by simp)
          · exact absurd h (by simp)
      · exact absurd h (by simp)
    | items acc =>
      simp only [parse] at h
      split at h
      · exact absurd h (by simp)
      · rename_i v1 rest1 hv
        have l1 := ih _ _ _ _ _ hv
        have l2 := skipWs_length rest1
        split at h
        · rename_i rest2 hr2
          rw [hr2] at l2
          simp only [List.length_cons] at l2
          have l3 := ih _ _ _ _ _ h
          omega
        · rename_i rest2 hr2
          rw [hr2] at l2
          simp only [List.length_cons] at l2
          simp only [Option.some.injEq, Prod.mk.injEq] at h
          rw [← h.2]; omega
        · exact absurd h (by simp)


theorem parse_fuel : ∀ (f1 f2 depth : Nat) (mode : Mode) (s : Bytes),
    fuelFor mode s ≤ f1 → fuelFor mode s ≤ f2 →
      parse f1 depth mode s = parse f2 depth mode s := by
  intro f1
  induction f1 with
  | zero => intro f2 depth mode s h1 _; cases mode <;> simp [fuelFor] at h1
  | succ f1 ih =>
    intro f2 depth mode s h1 h2
    obtain ⟨g, rfl⟩ : ∃ g, f2 = g + 1 := ⟨f2 - 1, by cases mode <;> simp only [fuelFor] at h2 <;> omega⟩
    cases mode with
    | value =>
      simp only [fuelFor] at h1 h2
      have hws := skipWs_length s
      cases hs : skipWs s with
      | nil => simp [parse, hs]
      | cons c rest =>
        rw [hs] at hws
        simp only [List.length_cons] at hws
        have hws2 := skipWs_length rest
        simp only [parse, hs]
        by_cases c1 : c = 0x22
        · simp only [c1, if_true]
        by_cases c2 : c = 0x7B
        · subst c2
          simp only [c1, if_false, if_true]
          cases depth with
          | zero => rfl
          | succ depth1 =>
            simp only
            split
            · rfl
            · exact ih _ _ _ _ (by simp only [fuelFor]; omega) (by simp only [fuelFor]; omega)
        by_cases c3 : c = 0x5B
        · subst c3
          simp only [c1, c2, if_false, if_true]
          cases depth with
          | zero => rfl
          | succ depth1 =>
            simp only
            split
            · rfl
            · exact ih _ _ _ _ (by simp only [fuelFor]; omega) (by simp only [fuelFor]; omega)
        simp only [c1, c2, c3, if_false]
    | members acc =>
      simp only [fuelFor] at h1 h2
      simp only [parse]
      split
      · rename_i rest
        simp only [List.length_cons] at h1 h2
        split
        · rfl
        · rename_i key rest1 hp
          have l1 := parseStringLit_length hp
          have l2 := skipWs_length rest1
          split
          · rename_i rest2 hr2
            rw [hr2] at l2
            simp only [List.length_cons] at l2
            rw [ih g depth Mode.value rest2 (by simp only [fuelFor]; omega)
              (by simp only [fuelFor]; omega)]
            split
            · rfl
            · rename_i v1 rest3 hv
              have l3 := parse_length _ _ _ _ _ _ hv
              have l4 := skipWs_length rest3
              split
              · rename_i rest4 hr4
                rw [hr4] at l4
                simp only [List.length_cons] at l4
                have l6 := skipWs_length rest4
                exact ih _ _ _ _ (by simp only [fuelFor]; omega) (by simp only [fuelFor]; omega)
              · rfl
              · rfl
          · rfl
      · rfl
    | items acc =>
      simp only [fuelFor] at h1 h2
      simp only [parse]
      rw [ih g depth Mode.value s (by simp only [fuelFor]; omega) (by simp only [fuelFor]; omega)]
      split
      · rfl
      · rename_i v1 rest1 hv
        have l1 := parse_length _ _ _ _ _ _ hv
        have l2 := skipWs_length rest1
        split
        · rename_i rest2 hr2
          rw [hr2] at l2
          simp only [List.length_cons] at l2
          exact ih _ _ _ _ (by simp only [fuelFor]; omega) (by simp only [fuelFor]; omega)
        · rfl
        · rfl

/-- The bound of `parseJSON` is never reached: any larger bound gives the same
result. -/
theorem parseJSON_fuel (data : Bytes) (fuel : Nat) (h : 2 * data.length + 1 ≤ fuel) :
    parse fuel 10000 Mode.value data = parse (2 * data.length + 1) 10000 Mode.value data :=
  parse_fuel _ _ _ _ _ (by simp only [fuelFor]; exact h) (by simp only [fuelFor]; exact le_refl _)


theorem unquoteLoop_fuel : ∀ (n1 n2 : Nat) (s : Bytes), s.length < n1 → s.length < n2 →
    unquoteLoop n1 s = unquoteLoop n2 s := by
  intro n1
  induction n1 with
  | zero => intro n2 s h1 _; omega
  | succ n1 ih =>
    intro n2 s h1 h2
    obtain ⟨g, rfl⟩ : ∃ g, n2 = g + 1 := ⟨n2 - 1, by omega⟩
    match s with
    | [] => simp [unquoteLoop]
    | c :: rest =>
      simp only [List.length_cons] at h1 h2
      have key : ∀ t : Bytes, t.length ≤ rest.length → unquoteLoop n1 t = unquoteLoop g t :=
        fun t ht => ih g t (by omega) (by omega)
      have kd := key (List.drop (decodeRune (c :: rest)).2 (c :: rest)) (by
        have := decodeRune_width_pos c rest
        simp only [List.length_drop, List.length_cons]; omega)
      have k0 := key rest (le_refl _)
      match rest with
      | [] => simp only [unquoteLoop, k0, kd]
      | e :: rest1 =>
        have k1 := key rest1 (by simp)
        have k2 := key (List.drop 4 rest1) (by
          simp only [List.length_drop, List.length_cons]; omega)
        have k3 := key (List.drop 6 (List.drop 4 rest1)) (by
          simp only [List.length_drop, List.length_cons]; omega)
        simp only [unquoteLoop, k0, k1, k2, k3, kd]

theorem appendStringLoop_fuel : ∀ (n1 n2 : Nat) (s : Bytes), s.length ≤ n1 → s.length ≤ n2 →
    appendStringLoop n1 s = appendStringLoop n2 s := by
  intro n1
  induction n1 with
  | zero =>
    intro n2 s h1 _
    have : s = [] := List.eq_nil_of_length_eq_zero (by omega)
    subst this
    cases n2 <;> rfl
  | succ n1 ih =>
    intro n2 s h1 h2
    match s with
    | [] => cases n2 <;> rfl
    | c :: rest =>
      simp only [List.length_cons] at h1 h2
      obtain ⟨g, rfl⟩ : ∃ g, n2 = g + 1 := ⟨n2 - 1, by omega⟩
      have k0 := ih g rest (by omega) (by omega)
      have kd := ih g (List.drop (decodeRune (List.take 4 (c :: rest))).2 (c :: rest)) (by
        rw [decodeRune_take4]
        have := decodeRune_width_pos c rest
        simp only [List.length_drop, List.length_cons]; omega) (by
        rw [decodeRune_take4]
        have := decodeRune_width_pos c rest
        simp only [List.length_drop, List.length_cons]; omega)
      simp only [appendStringLoop, k0, kd]

theorem coerceLoop_fuel : ∀ (n1 n2 : Nat) (s : Bytes), s.length ≤ n1 → s.length ≤ n2 →
    coerceLoop n1 s = coerceLoop n2 s := by
  intro n1
  induction n1 with
  | zero =>
    intro n2 s h1 _
    have : s = [] := List.eq_nil_of_length_eq_zero (by omega)
    subst this
    cases n2 <;> rfl
  | succ n1 ih =>
    intro n2 s h1 h2
    match s with
    | [] => cases n2 <;> rfl
    | c :: rest =>
      simp only [List.length_cons] at h1 h2
      obtain ⟨g, rfl⟩ : ∃ g, n2 = g + 1 := ⟨n2 - 1, by omega⟩
      have k0 := ih g rest (by omega) (by omega)
      have kd := ih g (List.drop (decodeRune (c :: rest)).2 (c :: rest)) (by
        have := decodeRune_width_pos c rest
        simp only [List.length_drop, List.length_cons]; omega) (by
        have := decodeRune_width_pos c rest
        simp only [List.length_drop, List.length_cons]; omega)
      simp only [coerceLoop, k0, kd]

theorem validLoop_fuel : ∀ (n1 n2 : Nat) (s : Bytes), s.length ≤ n1 → s.length ≤ n2 →
    validLoop n1 s = validLoop n2 s := by
  intro n1
  induction n1 with
  | zero =>
    intro n2 s h1 _
    have : s = [] := List.eq_nil_of_length_eq_zero (by omega)
    subst this
    cases n2 <;> rfl
  | succ n1 ih =>
    intro n2 s h1 h2
    match s with
    | [] => cases n2 <;> rfl
    | c :: rest =>
      simp only [List.length_cons] at h1 h2
      obtain ⟨g, rfl⟩ : ∃ g, n2 = g + 1 := ⟨n2 - 1, by omega⟩
      have k0 := ih g rest (by omega) (by omega)
      have kd := ih g (List.drop (decodeRune (c :: rest)).2 (c :: rest)) (by
        have := decodeRune_width_pos c rest
        simp only [List.length_drop, List.length_cons]; omega) (by
        have := decodeRune_width_pos c rest
        simp only [List.length_drop, List.length_cons]; omega)
      simp only [validLoop, k0, kd]

/-! ### The world state -/

theorem getKey_putKey_self (k v : Bytes) (w : List (Bytes × Bytes)) :
    getKey k (putKey k v w) = some v := by
  induction w with
  | nil => simp [putKey, getKey]
  | cons e w ih =>
    obtain ⟨k1, v1⟩ := e
    simp only [putKey]
    split_ifs with h1 h2
    · simp [getKey]
    · simp [getKey]
    · simp [getKey, h1, ih]

theorem getKey_delKey_self (k : Bytes) (w : List (Bytes × Bytes)) :
    getKey k (delKey k w) = none := by
  induction w with
  | nil => rfl
  | cons e w ih =>
    obtain ⟨k1, v1⟩ := e
    by_cases h : k1 = k
    · simpa [delKey, List.filter_cons, h] using ih
    · have h' : ¬ k = k1 := fun h2 => h h2.symm
      simpa [delKey, List.filter_cons, h, getKey, h'] using ih

/-! ### Transactions -/

theorem invoke_readonly {α : Type} (l : Ledger) (f : Stub → Outcome α) (h : (f l.stub).2 = []) :
    (l.invoke f).2 = l := by
  unfold Ledger.invoke
  rcases hf : f l.stub with ⟨r, ws⟩
  rw [hf] at h
  simp only at h
  subst h
  cases r <;> rfl

theorem stub_GetState (l : Ledger) {k : Bytes} (hv : utf8Valid k = true) :
    l.stub.GetState k = Answer.ok (getKey k l.world) := by
  show (if utf8Valid k = true then _ else _) = _
  rw [if_pos hv]

theorem stub_GetState_invalid (l : Ledger) {k : Bytes} (hv : ¬ utf8Valid k = true) :
    l.stub.GetState k = Answer.panic := by
  show (if utf8Valid k = true then _ else _) = _
  rw [if_neg hv]

theorem stub_DelState (l : Ledger) {k : Bytes} (hv : utf8Valid k = true) :
    l.stub.DelState k = Answer.ok () := by
  show (if utf8Valid k = true then _ else _) = _
  rw [if_pos hv]

theorem stub_PutState_ok (l : Ledger) {k : Bytes} (v : Bytes) (h : k ≠ [])
    (hv : utf8Valid k = true) : l.stub.PutState k v = Answer.ok () := by
  show (if k = [] then _ else if utf8Valid k = true then _ else _) = _
  rw [if_neg h, if_pos hv]

theorem stub_PutState_nil (l : Ledger) (v : Bytes) :
    l.stub.PutState [] v = Answer.error (ascii "key must not be an empty string") := rfl

theorem stub_PutState_invalid (l : Ledger) {k : Bytes} (v : Bytes) (h : k ≠ [])
    (hv : ¬ utf8Valid k = true) : l.stub.PutState k v = Answer.panic := by
  show (if k = [] then _ else if utf8Valid k = true then _ else _) = _
  rw [if_neg h, if_neg hv]

theorem stub_GetHistoryForKey (l : Ledger) {k : Bytes} (hv : utf8Valid k = true) :
    l.stub.GetHistoryForKey k = Answer.ok (some ((l.historyFor k).map Except.ok)) := by
  show (if utf8Valid k = true then _ else _) = _
  rw [if_pos hv]

theorem create_invoke_ok (l : Ledger) {uid : Bytes} (cid : Bytes) (h : uid ≠ [])
    (hv : utf8Valid uid = true) :
    l.invoke (fun s => CreateOrUpdateContainer s uid cid) =
      (Except.ok (), l.apply (Write.put uid (Marshal ⟨cid, uid⟩))) := by
  simp only [Ledger.invoke, CreateOrUpdateContainer, stub_PutState_ok l _ h hv]
  rfl

theorem create_invoke_invalid (l : Ledger) {uid : Bytes} (cid : Bytes) (h : uid ≠ [])
    (hv : ¬ utf8Valid uid = true) :
    l.invoke (fun s => CreateOrUpdateContainer s uid cid) = (Except.error Error.stubPanic, l) := by
  simp only [Ledger.invoke, CreateOrUpdateContainer, stub_PutState_invalid l _ h hv]

theorem create_invoke_nil (l : Ledger) (cid : Bytes) :
    l.invoke (fun s => CreateOrUpdateContainer s [] cid) =
      (Except.error (Error.host (ascii "key must not be an empty string")), l) := by
  simp only [Ledger.invoke, CreateOrUpdateContainer, stub_PutState_nil]

theorem create_after_valid {l l1 : Ledger} {uid cid : Bytes} :
    l.after (fun s => CreateOrUpdateContainer s uid cid) = some l1 ↔
      uid ≠ [] ∧ utf8Valid uid = true ∧ l1 = l.apply (Write.put uid (Marshal ⟨cid, uid⟩)) := by
  by_cases h : uid = []
  · subst h
    simp only [Ledger.after, create_invoke_nil]
    simp
  · by_cases hv : utf8Valid uid = true
    · simp only [Ledger.after, create_invoke_ok l cid h hv]
      simp [h, hv, eq_comm]
    · simp only [Ledger.after, create_invoke_invalid l cid h hv]
      simp [hv]

theorem create_after {l l1 : Ledger} {uid cid : Bytes}
    (h : l.after (fun s => CreateOrUpdateContainer s uid cid) = some l1) :
    uid ≠ [] ∧ l1 = l.apply (Write.put uid (Marshal ⟨cid, uid⟩)) :=
  ⟨(create_after_valid.mp h).1, (create_after_valid.mp h).2.2⟩

theorem delete_invoke_some (l : Ledger) {uid v : Bytes} (hv : utf8Valid uid = true)
    (h : getKey uid l.world = some v) :
    l.invoke (fun s => DeleteContainer s uid) = (Except.ok (), l.apply (Write.del uid)) := by
  simp only [Ledger.invoke, DeleteContainer, ContainerExists, stub_GetState l hv, h,
    stub_DelState l hv]
  rfl

theorem delete_invoke_none (l : Ledger) {uid : Bytes} (hv : utf8Valid uid = true)
    (h : getKey uid l.world = none) :
    l.invoke (fun s => DeleteContainer s uid) = (Except.error (notFound uid), l) := by
  simp only [Ledger.invoke, DeleteContainer, ContainerExists, stub_GetState l hv, h]
  rfl

theorem delete_invoke_invalid (l : Ledger) {uid : Bytes} (hv : ¬ utf8Valid uid = true) :
    l.invoke (fun s => DeleteContainer s uid) = (Except.error Error.stubPanic, l) := by
  simp only [Ledger.invoke, DeleteContainer, ContainerExists, stub_GetState_invalid l hv]

theorem delete_after {l l1 : Ledger} {uid : Bytes} :
    l.after (fun s => DeleteContainer s uid) = some l1 ↔
      utf8Valid uid = true ∧ getKey uid l.world ≠ none ∧ l1 = l.apply (Write.del uid) := by
  by_cases hv : utf8Valid uid = true
  · cases h : getKey uid l.world with
    | none =>
      simp only [Ledger.after, delete_invoke_none l hv h]
      simp
    | some v =>
      simp only [Ledger.after, delete_invoke_some l hv h]
      simp [hv, eq_comm]
  · simp only [Ledger.after, delete_invoke_invalid l hv]
    simp [hv]

/-! ### The history database -/

theorem historyFor_put_self (l : Ledger) (k v : Bytes) :
    (l.apply (Write.put k v)).historyFor k =
      if l.newestFirst then ⟨v, false⟩ :: l.historyFor k else l.historyFor k ++ [⟨v, false⟩] := by
  cases hn : l.newestFirst <;> simp [Ledger.apply, Ledger.historyFor, hn, List.filter_append]

theorem historyFor_put_ne (l : Ledger) {k k1 : Bytes} (v : Bytes) (h : k ≠ k1) :
    (l.apply (Write.put k v)).historyFor k1 = l.historyFor k1 := by
  cases hn : l.newestFirst <;> simp [Ledger.apply, Ledger.historyFor, hn, List.filter_append, h]

theorem historyFor_del_self (l : Ledger) (k : Bytes) :
    (l.apply (Write.del k)).historyFor k =
      if l.newestFirst then ⟨[], true⟩ :: l.historyFor k else l.historyFor k ++ [⟨[], true⟩] := by
  cases hn : l.newestFirst <;> simp [Ledger.apply, Ledger.historyFor, hn, List.filter_append]

theorem historyFor_del_ne (l : Ledger) {k k1 : Bytes} (h : k ≠ k1) :
    (l.apply (Write.del k)).historyFor k1 = l.historyFor k1 := by
  cases hn : l.newestFirst <;> simp [Ledger.apply, Ledger.historyFor, hn, List.filter_append, h]

theorem newestFirst_apply (l : Ledger) (w : Write) : (l.apply w).newestFirst = l.newestFirst := by
  cases w <;> rfl

theorem historyLoop_ok : ∀ (ms : List KeyModification) (cs acc : List PatientContainer),
    ms.map (fun m => Unmarshal m.Value) = cs.map Except.ok →
      historyLoop (ms.map Except.ok) acc = Except.ok (acc ++ cs) := by
  intro ms
  induction ms with
  | nil =>
    intro cs acc h
    cases cs with
    | nil => simp [historyLoop]
    | cons c cs => simp at h
  | cons m ms ih =>
    intro cs acc h
    cases cs with
    | nil => simp at h
    | cons c cs =>
      simp only [List.map_cons, List.cons.injEq] at h
      simp only [List.map_cons, historyLoop, h.1]
      rw [ih cs _ h.2]
      simp

theorem writeAll_history (uid : Bytes) : ∀ (cids : List Bytes) (l l1 : Ledger),
    writeAll l uid cids = some l1 →
      l1.newestFirst = l.newestFirst ∧
      l1.historyFor uid =
        if l.newestFirst then
          (cids.map (fun c => (⟨Marshal ⟨c, uid⟩, false⟩ : KeyModification))).reverse ++ l.historyFor uid
        else l.historyFor uid ++ cids.map (fun c => ⟨Marshal ⟨c, uid⟩, false⟩) := by
  intro cids
  induction cids with
  | nil =>
    intro l l1 h
    simp only [writeAll, Option.some.injEq] at h
    subst h
    simp
  | cons c cids ih =>
    intro l l1 h
    simp only [writeAll] at h
    cases ha : l.after (fun s => CreateOrUpdateContainer s uid c) with
    | none => simp [ha] at h
    | some l2 =>
      simp only [ha] at h
      obtain ⟨_, rfl⟩ := create_after ha
      obtain ⟨h1, h2⟩ := ih _ _ h
      rw [newestFirst_apply] at h1 h2
      refine ⟨h1, ?_⟩
      rw [h2, historyFor_put_self]
      cases l.newestFirst <;> simp


theorem getKey_putKey_ne {k k1 : Bytes} (v : Bytes) (w : List (Bytes × Bytes)) (h : k ≠ k1) :
    getKey k1 (putKey k v w) = getKey k1 w := by
  have h' : ¬ k1 = k := fun h2 => h h2.symm
  induction w with
  | nil => simp [putKey, getKey, h']
  | cons e w ih =>
    obtain ⟨k2, v2⟩ := e
    simp only [putKey]
    split_ifs with h1 h2
    · subst h1; simp [getKey, h']
    · simp [getKey, h']
    · simp [getKey, ih]

theorem getKey_delKey_ne {k k1 : Bytes} (w : List (Bytes × Bytes)) (h : k ≠ k1) :
    getKey k1 (delKey k w) = getKey k1 w := by
  induction w with
  | nil => rfl
  | cons e w ih =>
    obtain ⟨k2, v2⟩ := e
    by_cases h2 : k2 = k
    · subst h2
      have h' : ¬ k1 = k2 := fun h3 => h h3.symm
      simpa [delKey, List.filter_cons, getKey, h'] using ih
    · simp only [delKey, List.filter_cons, h2, ne_eq, not_false_eq_true, decide_True, if_true,
        getKey]
      split_ifs
      · rfl
      · exact ih

theorem mem_putKey {k v : Bytes} {w : List (Bytes × Bytes)} {e : Bytes × Bytes}
    (h : e ∈ putKey k v w) : e = (k, v) ∨ e ∈ w := by
  induction w with
  | nil => simpa [putKey] using h
  | cons e1 w ih =>
    obtain ⟨k1, v1⟩ := e1
    simp only [putKey] at h
    split_ifs at h with h1 h2
    · simp only [List.mem_cons] at h ⊢
      rcases h with h | h
      · exact Or.inl h
      · exact Or.inr (Or.inr h)
    · simp only [List.mem_cons] at h ⊢
      rcases h with h | h | h
      · exact Or.inl h
      · exact Or.inr (Or.inl h)
      · exact Or.inr (Or.inr h)
    · simp only [List.mem_cons] at h ⊢
      rcases h with h | h
      · exact Or.inr (Or.inl h)
      · rcases ih h with h | h
        · exact Or.inl h
        · exact Or.inr (Or.inr h)

theorem mem_delKey {k : Bytes} {w : List (Bytes × Bytes)} {e : Bytes × Bytes}
    (h : e ∈ delKey k w) : e ∈ w := (List.mem_filter.mp h).1

/-- On a reachable ledger a key that holds a value has a history. -/
theorem reachable_history {p : Bytes → Bool} {l : Ledger} (hr : ReachableBy p l) :
    ∀ k, getKey k l.world ≠ none → l.historyFor k ≠ [] := by
  induction hr with
  | empty nf => intro k h; exact absurd rfl h
  | create uid cid _ _ ha ih =>
    obtain ⟨_, rfl⟩ := create_after ha
    intro k h
    by_cases hk : uid = k
    · subst hk
      rw [historyFor_put_self]
      split_ifs <;> simp
    · rw [historyFor_put_ne _ _ hk]
      apply ih
      simpa [Ledger.apply, getKey_putKey_ne _ _ hk] using h
  | delete uid _ ha ih =>
    obtain ⟨_, _, rfl⟩ := delete_after.mp ha
    intro k h
    by_cases hk : uid = k
    · subst hk
      exact absurd (getKey_delKey_self _ _) h
    · rw [historyFor_del_ne _ hk]
      apply ih
      simpa [Ledger.apply, getKey_delKey_ne _ hk] using h

/-- On a reachable ledger every stored value decodes to a record whose `UID`
is the key it is stored under: a create succeeds only on a key that is valid
UTF-8, and such a key decodes to itself. -/
theorem reachable_keyed {p : Bytes → Bool} {l : Ledger} (hr : ReachableBy p l) :
    ∀ e ∈ l.world, ∃ c, Unmarshal e.2 = Except.ok c ∧ c.UID = e.1 := by
  induction hr with
  | empty nf => intro e h; simp [Ledger.empty] at h
  | create uid cid _ _ ha ih =>
    obtain ⟨_, hv, rfl⟩ := create_after_valid.mp ha
    intro e he
    rcases mem_putKey he with rfl | he
    · exact ⟨_, Unmarshal_Marshal _, coerceUTF8_valid hv⟩
    · exact ih e he
  | delete uid _ ha ih =>
    obtain ⟨_, _, rfl⟩ := delete_after.mp ha
    intro e he
    exact ih e (mem_delKey he)

/-! ### Key order and the range query -/

theorem bytesLt_asymm : ∀ a b : Bytes, bytesLt a b = true → bytesLt b a = false := by
  intro a
  induction a with
  | nil => intro b h; cases b <;> simp [bytesLt] at h ⊢
  | cons x a ih =>
    intro b h
    cases b with
    | nil => simp [bytesLt] at h
    | cons y b =>
      simp only [bytesLt] at h ⊢
      split_ifs at h ⊢ <;> first | rfl | omega | exact ih b h

theorem bytesLt_total : ∀ a b : Bytes, a ≠ b → bytesLt a b = false → bytesLt b a = true := by
  intro a
  induction a with
  | nil => intro b h1 h2; cases b <;> simp [bytesLt] at h1 h2 ⊢
  | cons x a ih =>
    intro b h1 h2
    cases b with
    | nil => rfl
    | cons y b =>
      simp only [bytesLt] at h2 ⊢
      split_ifs at h2 ⊢ with h3 h4
      · rfl
      · have hxy : x = y := by omega
        subst hxy
        exact ih b (fun h => h1 (by rw [h])) h2

theorem bytesLt_one {k : Bytes} (h1 : k ≠ []) (h2 : simpleKey k = true) :
    bytesLt k [0x01] = false := by
  match k with
  | [] => exact absurd rfl h1
  | b :: r =>
    have hb : b ≠ 0 := by
      rintro rfl
      simp [simpleKey] at h2
    simp only [bytesLt]
    split_ifs
    · omega
    · rfl
    · cases r <;> rfl

theorem resultsLoop_ok : ∀ (kvs : List KV) (cs acc : List PatientContainer),
    kvs.map (fun kv => Unmarshal kv.Value) = cs.map Except.ok →
      resultsLoop (kvs.map Except.ok) acc = Except.ok (acc ++ cs) := by
  intro kvs
  induction kvs with
  | nil =>
    intro cs acc h
    cases cs with
    | nil => simp [resultsLoop]
    | cons c cs => simp at h
  | cons m ms ih =>
    intro cs acc h
    cases cs with
    | nil => simp at h
    | cons c cs =>
      simp only [List.map_cons, List.cons.injEq] at h
      simp only [List.map_cons, resultsLoop, h.1]
      rw [ih cs _ h.2]
      simp

/-- What a successful run of the outer loop of `GetAllContainersHistory`
returns, against the loop of `GetAllContainers` on the same iterator. -/
theorem resultsHistoryLoop_spec (stub : Stub) : ∀ (it : Iterator KV)
    (accH : List (List PatientContainer)) (accA : List PatientContainer)
    (hs : List (List PatientContainer)),
    resultsHistoryLoop stub it accH = Except.ok hs →
    ∃ assets hs1, resultsLoop it accA = Except.ok (accA ++ assets) ∧ hs = accH ++ hs1 ∧
      List.Forall₂ (fun a h => ReadContainerHistory stub a.UID = (Except.ok h, [])) assets hs1 ∧
      List.Forall₂ (fun r a => ∃ kv, r = Except.ok kv ∧ Unmarshal kv.Value = Except.ok a)
        it assets := by
  intro it
  induction it with
  | nil =>
    intro accH accA hs h
    simp only [resultsHistoryLoop, Except.ok.injEq] at h
    exact ⟨[], [], by simp [resultsLoop], by simp [h], List.Forall₂.nil, List.Forall₂.nil⟩
  | cons r it ih =>
    intro accH accA hs h
    cases r with
    | error e => simp [resultsHistoryLoop] at h
    | ok kv =>
      simp only [resultsHistoryLoop] at h
      cases hu : Unmarshal kv.Value with
      | error e => simp [hu] at h
      | ok c =>
        simp only [hu] at h
        cases hg : stub.GetHistoryForKey c.UID with
        | panic => simp [hg] at h
        | error e => simp [hg] at h
        | ok o =>
          cases o with
          | none => simp [hg] at h
          | some hit =>
            simp only [hg] at h
            cases hh : historyLoop hit [] with
            | error e => simp [hh] at h
            | ok hist =>
              simp only [hh] at h
              obtain ⟨assets, hs1, h1, h2, h3, h4⟩ := ih _ (accA ++ [c]) _ h
              refine ⟨c :: assets, hist :: hs1, ?_, ?_, ?_, ?_⟩
              · simp only [resultsLoop, hu, h1]
                simp
              · rw [h2]; simp
              · refine List.Forall₂.cons ?_ h3
                simp only [ReadContainerHistory, hg, hh]
              · exact List.Forall₂.cons ⟨kv, rfl, hu⟩ h4

/-! ### The contract on the ledger -/

/-- What `ReadContainer` returns after a successful `CreateOrUpdateContainer`:
the record written, both fields coerced to valid UTF-8. -/
theorem read_after_create {l l1 : Ledger} {uid cid : Bytes}
    (h : l.after (fun s => CreateOrUpdateContainer s uid cid) = some l1) :
    ReadContainer l1.stub uid = (Except.ok ⟨coerceUTF8 cid, coerceUTF8 uid⟩, []) := by
  obtain ⟨_, hv, rfl⟩ := create_after_valid.mp h
  simp only [ReadContainer, stub_GetState _ hv, Ledger.apply, getKey_putKey_self,
    Unmarshal_Marshal]

/-- After a successful create and delete of `uid` on an empty ledger,
`ReadContainerHistory(uid)` fails: the history holds the deletion, whose value
is empty, and decoding it is a syntax error. -/
theorem history_after_delete (newestFirst : Bool) (uid cid : Bytes) (l1 l2 : Ledger)
    (h1 : (Ledger.empty newestFirst).after (fun s => CreateOrUpdateContainer s uid cid) = some l1)
    (h2 : l1.after (fun s => DeleteContainer s uid) = some l2) :
    ReadContainerHistory l2.stub uid = (Except.error (Error.json JsonError.invalid), []) := by
  obtain ⟨_, rfl⟩ := create_after h1
  obtain ⟨hv, _, rfl⟩ := delete_after.mp h2
  simp only [ReadContainerHistory, stub_GetHistoryForKey _ hv, historyFor_del_self,
    historyFor_put_self, newestFirst_apply]
  cases newestFirst <;>
    simp [Ledger.empty, Ledger.historyFor, historyLoop, Unmarshal_Marshal, Unmarshal_nil]

/-- On any stub: a nil history iterator gives the not-found error, an empty
iterator a successful empty result. -/
theorem history_nil_or_empty (stub : Stub) (uid : Bytes) :
    (stub.GetHistoryForKey uid = Answer.ok none →
        ReadContainerHistory stub uid = (Except.error (notFound uid), [])) ∧
      (stub.GetHistoryForKey uid = Answer.ok (some []) →
        ReadContainerHistory stub uid = (Except.ok [], [])) := by
  constructor
  · intro h
    simp only [ReadContainerHistory, h]
  · intro h
    simp only [ReadContainerHistory, h]
    rfl

/-- The history loop fails at the first modification without a value, such as
a deletion, when the entries before it decode. -/
theorem historyLoop_empty_value : ∀ (pre : List KeyModification) (cs acc : List PatientContainer)
    (m : KeyModification) (post : Iterator KeyModification),
    pre.map (fun x => Unmarshal x.Value) = cs.map Except.ok → m.Value = [] →
      historyLoop (pre.map Except.ok ++ Except.ok m :: post) acc
        = Except.error (Error.json JsonError.invalid) := by
  intro pre
  induction pre with
  | nil =>
    intro cs acc m post _ hm
    simp only [List.map_nil, List.nil_append, historyLoop, hm, Unmarshal_nil]
  | cons x pre ih =>
    intro cs acc m post h hm
    cases cs with
    | nil => simp at h
    | cons c cs =>
      simp only [List.map_cons, List.cons.injEq] at h
      simp only [List.map_cons, List.cons_append, historyLoop, h.1]
      exact ih cs _ m post h.2 hm

/-- On the ledger a valid UTF-8 `uid` without history gets a successful, empty
result from `ReadContainerHistory`, not the not-found error. -/
theorem history_never_written (l : Ledger) (uid : Bytes) (hv : utf8Valid uid = true)
    (h : l.historyFor uid = []) :
    ReadContainerHistory l.stub uid = (Except.ok [], []) := by
  simp only [ReadContainerHistory, stub_GetHistoryForKey l hv, h]
  rfl

/-- The read-failure error is never the not-found error. -/
theorem readFailed_ne_notFound (err uid : Bytes) : readFailed err ≠ notFound uid := by
  intro h
  have h1 : ascii "failed to read from world state: " ++ err
      = ascii "the asset " ++ uid ++ ascii " does not exist" := Error.errorf.inj h
  have h2 := congrArg List.head? h1
  simp [ascii] at h2

/-- The history of `uid` after successive successful writes, decoded: one
container per write, each field coerced to valid UTF-8, in the order of the
host's history iterator. -/
theorem history_after_writes (l l1 : Ledger) (uid : Bytes) (cids : List Bytes)
    (hv : utf8Valid uid = true)
    (hprior : l.historyFor uid = []) (hw : writeAll l uid cids = some l1) :
    ReadContainerHistory l1.stub uid =
      (Except.ok (if l.newestFirst
          then (cids.map (fun c => (⟨coerceUTF8 c, coerceUTF8 uid⟩ : PatientContainer))).reverse
          else cids.map (fun c => ⟨coerceUTF8 c, coerceUTF8 uid⟩)), []) := by
  obtain ⟨_, hh⟩ := writeAll_history uid cids l l1 hw
  rw [hprior] at hh
  simp only [ReadContainerHistory, stub_GetHistoryForKey l1 hv, hh]
  cases l.newestFirst
  · simp only [Bool.false_eq_true, if_false, List.nil_append]
    rw [historyLoop_ok _ (cids.map (fun c => ⟨coerceUTF8 c, coerceUTF8 uid⟩)) []]
    · rfl
    · simp [Unmarshal_Marshal]
  · simp only [if_true, List.append_nil]
    rw [historyLoop_ok _ (cids.map (fun c => ⟨coerceUTF8 c, coerceUTF8 uid⟩)).reverse []]
    · rfl
    · simp [Unmarshal_Marshal]

theorem stub_range (l : Ledger) :
    l.stub.GetStateByRange [] [] = Answer.ok (some ((l.world.filter
      (fun e => !bytesLt e.1 [0x01])).map (fun e => Except.ok ⟨e.1, e.2⟩))) := by
  have h1 : utf8Valid [0x01] = true := by decide
  have h2 : utf8Valid [] = true := by decide
  simp [Ledger.stub, validateSimpleKeys, simpleKey, h1, h2]

/-- `GetAllContainers` decodes every entry of the range iterator, in the
iterator's order, and drops none. -/
theorem getAll_general (stub : Stub) (kvs : List KV) (assets : List PatientContainer)
    (hr : stub.GetStateByRange [] [] = Answer.ok (some (kvs.map Except.ok)))
    (hd : kvs.map (fun kv => Unmarshal kv.Value) = assets.map Except.ok) :
    GetAllContainers stub = (Except.ok assets, []) := by
  simp only [GetAllContainers, hr]
  rw [resultsLoop_ok kvs assets [] hd]
  rfl

theorem getAll_two (l : Ledger) (k1 k2 c1 c2 : Bytes)
    (hw : l.world = [(k1, Marshal ⟨c1, k1⟩), (k2, Marshal ⟨c2, k2⟩)])
    (h1 : k1 ≠ []) (h2 : k2 ≠ []) (hs1 : simpleKey k1 = true) (hs2 : simpleKey k2 = true) :
    GetAllContainers l.stub
      = (Except.ok [⟨coerceUTF8 c1, coerceUTF8 k1⟩, ⟨coerceUTF8 c2, coerceUTF8 k2⟩], []) := by
  apply getAll_general l.stub [⟨k1, Marshal ⟨c1, k1⟩⟩, ⟨k2, Marshal ⟨c2, k2⟩⟩]
  · rw [stub_range, hw]
    simp [List.filter_cons, bytesLt_one h1 hs1, bytesLt_one h2 hs2]
  · simp [Unmarshal_Marshal]

/-! ### Decoding, member by member -/

theorem keyMatches_upper (k : Bytes) (name : String)
    (hn : (ascii name).map upperByte = ascii name) :
    keyMatches k name = decide (k.map upperByte = ascii name) := by
  simp only [keyMatches]
  by_cases h : k = ascii name
  · subst h
    simp [hn]
  · simp [h]

theorem keyMatches_CID_UID (k : Bytes) (h : keyMatches k "CID" = true) :
    keyMatches k "UID" = false := by
  rw [keyMatches_upper k "CID" (by decide)] at h
  rw [keyMatches_upper k "UID" (by decide)]
  have h1 := of_decide_eq_true h
  rw [h1]
  decide

theorem fieldOf_concat (name : String) (ms : List (Bytes × JValue)) (m : Bytes × JValue) :
    fieldOf name (ms ++ [m]) =
      if keyMatches m.1 name then
        (match m.2 with
         | JValue.string s => s
         | _ => fieldOf name ms)
      else fieldOf name ms := by
  simp only [fieldOf, List.filterMap_append, List.filterMap_cons, List.filterMap_nil]
  by_cases hk : keyMatches m.1 name = true
  · simp only [hk, if_true]
    cases m.2 <;> simp
  · simp [hk]

theorem foldl_storeMember (ms : List (Bytes × JValue)) :
    ms.foldl storeMember (⟨[], []⟩, none) =
      (⟨fieldOf "CID" ms, fieldOf "UID" ms⟩,
        if ms.any badMember = true then some JsonError.mismatch else none) := by
  induction ms using List.reverseRecOn with
  | nil => rfl
  | append_singleton l a ih =>
    rw [List.foldl_append, ih, List.foldl_cons, List.foldl_nil, fieldOf_concat, fieldOf_concat,
      List.any_append]
    simp only [List.any_cons, List.any_nil, Bool.or_false, storeMember, badMember]
    by_cases hc : keyMatches a.1 "CID" = true
    · have hu := keyMatches_CID_UID _ hc
      simp only [hc, hu, if_true, Bool.true_or, Bool.true_and]
      cases a.2 <;> cases h : l.any badMember <;> simp [storeString, isStringOrNull, h]
    · by_cases hu : keyMatches a.1 "UID" = true
      · simp only [hc, hu, if_true, Bool.or_true, Bool.true_and]
        cases a.2 <;> cases h : l.any badMember <;> simp [storeString, isStringOrNull, h]
      · have hc1 : keyMatches a.1 "CID" = false := by simpa using hc
        have hu1 : keyMatches a.1 "UID" = false := by simpa using hu
        rw [if_neg hc, if_neg hu, if_neg hc, if_neg hu, hc1, hu1]
        cases l.any badMember <;> rfl

theorem Unmarshal_object {b : Bytes} {ms : List (Bytes × JValue)}
    (h : parseJSON b = some (JValue.object ms)) :
    Unmarshal b = if ms.any badMember = true then Except.error JsonError.mismatch
      else Except.ok ⟨fieldOf "CID" ms, fieldOf "UID" ms⟩ := by
  simp only [Unmarshal, h, foldl_storeMember]
  cases ms.any badMember <;> simp


theorem Marshal_ne_null (c : PatientContainer) : Marshal c ≠ ascii "null" := by
  intro h
  rw [Marshal_eq] at h
  have h1 : ascii "null" = [0x6E, 0x75, 0x6C, 0x6C] := rfl
  rw [h1] at h
  exact absurd (List.cons.inj h).1 (by decide)

theorem Marshal_ne_braces (c : PatientContainer) : Marshal c ≠ ascii "\x7b\x7d" := by
  intro h
  rw [Marshal_eq] at h
  have h1 : ascii "\x7b\x7d" = [0x7B, 0x7D] := rfl
  rw [h1] at h
  exact absurd (List.cons.inj (List.cons.inj h).2).1 (by decide)

theorem read_stored {stub : Stub} {uid b : Bytes} (h : stub.GetState uid = Answer.ok (some b)) :
    (ReadContainer stub uid).1 = (Unmarshal b).mapError Error.json := by
  simp only [ReadContainer, h]
  cases hu : Unmarshal b <;> rfl

theorem read_no_write (stub : Stub) (uid : Bytes) : (ReadContainer stub uid).2 = [] := by
  simp only [ReadContainer]
  cases stub.GetState uid with
  | panic => rfl
  | error e => rfl
  | ok o =>
    cases o with
    | none => rfl
    | some b => cases hu : Unmarshal b <;> simp [hu]

/-! ## The claims -/

/-- C1, as amended: for every ledger state and all valid UTF-8 strings `uid`
and `cid`, when `CreateOrUpdateContainer(uid, cid)` succeeds, a following
`ReadContainer(uid)` succeeds and returns the container with exactly that
`UID` and `CID`, and writes nothing. -/
theorem C1_roundtrip_valid (l l1 : Ledger) (uid cid : Bytes)
    (hu : utf8Valid uid = true) (hc : utf8Valid cid = true)
    (h : l.after (fun s => CreateOrUpdateContainer s uid cid) = some l1) :
    ReadContainer l1.stub uid = (Except.ok ⟨cid, uid⟩, []) := by
  rw [read_after_create h, coerceUTF8_valid hu, coerceUTF8_valid hc]

/-- Witness of C1: `CreateOrUpdateContainer("patient-1", "cid-abc")` on the
empty ledger, then `ReadContainer("patient-1")`. -/
theorem C1_roundtrip_valid_witness :
    ReadContainer ((Ledger.empty false).apply
        (Write.put (ascii "patient-1") (Marshal ⟨ascii "cid-abc", ascii "patient-1"⟩))).stub
      (ascii "patient-1") = (Except.ok ⟨ascii "cid-abc", ascii "patient-1"⟩, []) :=
  C1_roundtrip_valid (Ledger.empty false) _ (ascii "patient-1") (ascii "cid-abc")
    (by decide) (by decide) (by decide)

set_option maxRecDepth 100000 in
/-- C1 as stated fails: after `CreateOrUpdateContainer("k", "\xff")` on the
empty ledger, `ReadContainer("k")` returns the `CID` U+FFFD (`EF BF BD`), not
the byte `FF` that was written. -/
theorem C1_counterexample :
    (((Ledger.empty false).after (fun s => CreateOrUpdateContainer s (ascii "k") [0xFF])).map
        (fun l1 => ReadContainer l1.stub (ascii "k"))
      = some (Except.ok ⟨[0xEF, 0xBF, 0xBD], ascii "k"⟩, [])) ∧
    (⟨[0xEF, 0xBF, 0xBD], ascii "k"⟩ : PatientContainer) ≠ ⟨[0xFF], ascii "k"⟩ := by
  decide

/-- C2, as amended: for every ledger state and every valid UTF-8 `uid` with no
value stored in the world state, `DeleteContainer(uid)` fails with the
not-found error `the asset <uid> does not exist` and makes no write:
`DelState` is not called, and the ledger (world state and history) after the
transaction is the ledger before it. The same holds, for every `uid`, on any
stub whose `GetState` reports the key absent. -/
theorem C2_delete_absent (l : Ledger) (uid : Bytes) (hu : utf8Valid uid = true)
    (h : getKey uid l.world = none) :
    DeleteContainer l.stub uid
        = (Except.error (Error.errorf (ascii "the asset " ++ uid ++ ascii " does not exist")), []) ∧
      l.invoke (fun s => DeleteContainer s uid) = (Except.error (notFound uid), l) ∧
      ∀ stub : Stub, stub.GetState uid = Answer.ok none →
        DeleteContainer stub uid = (Except.error (notFound uid), []) := by
  refine ⟨?_, delete_invoke_none l hu h, ?_⟩
  · simp only [DeleteContainer, ContainerExists, stub_GetState l hu, h]
    rfl
  · intro stub hs
    simp only [DeleteContainer, ContainerExists, hs]
    rfl

/-- Witness of C2: `DeleteContainer("patient-1")` on the empty ledger. -/
theorem C2_delete_absent_witness :
    (Ledger.empty false).invoke (fun s => DeleteContainer s (ascii "patient-1"))
      = (Except.error (notFound (ascii "patient-1")), Ledger.empty false) :=
  (C2_delete_absent (Ledger.empty false) (ascii "patient-1") (by decide) rfl).2.1

/-- C2 as stated fails: the uid `\xff` is not valid UTF-8 and has no value
stored on the empty ledger, yet `DeleteContainer` does not fail with the
not-found error: the read of the key panics in the stub. No write is made. -/
theorem C2_counterexample :
    getKey [0xFF] (Ledger.empty false).world = none ∧
    DeleteContainer (Ledger.empty false).stub [0xFF] = (Except.error Error.stubPanic, []) ∧
    Error.stubPanic ≠ notFound [0xFF] := by
  decide

set_option maxRecDepth 100000 in
/-- C3 at the example of the specification, on either kind of host: after
`CreateOrUpdateContainer("patient-1", "cid-abc")` and
`DeleteContainer("patient-1")` on an empty ledger, both of which succeed,
`ReadContainerHistory("patient-1")` returns a JSON syntax error and no
container. -/
theorem C3_history_after_delete_fails :
    ((((Ledger.empty false).after
          (fun s => CreateOrUpdateContainer s (ascii "patient-1") (ascii "cid-abc"))).bind
        (fun l1 => l1.after (fun s => DeleteContainer s (ascii "patient-1")))).map
        (fun l2 => ReadContainerHistory l2.stub (ascii "patient-1"))
      = some (Except.error (Error.json JsonError.invalid), [])) ∧
    ((((Ledger.empty true).after
          (fun s => CreateOrUpdateContainer s (ascii "patient-1") (ascii "cid-abc"))).bind
        (fun l1 => l1.after (fun s => DeleteContainer s (ascii "patient-1")))).map
        (fun l2 => ReadContainerHistory l2.stub (ascii "patient-1"))
      = some (Except.error (Error.json JsonError.invalid), [])) := by
  decide

/-- C4, as amended: for every valid UTF-8 `uid` and every sequence of
successful writes of valid UTF-8 `cid1 .. cidN` to it, on a ledger with no
prior history for `uid`, `ReadContainerHistory(uid)` returns exactly `N`
containers, the one of write `i` being `{UID: uid, CID: cid_i}`, in the order
of the host's history iterator: write order on a host that iterates oldest
first, the reverse on a host that iterates newest first. -/
theorem C4_history_of_writes (l l1 : Ledger) (uid : Bytes) (cids : List Bytes)
    (hprior : l.historyFor uid = [])
    (hu : utf8Valid uid = true) (hc : ∀ c ∈ cids, utf8Valid c = true)
    (hw : writeAll l uid cids = some l1) :
    ReadContainerHistory l1.stub uid =
      (Except.ok (if l.newestFirst
          then (cids.map (fun c => (⟨c, uid⟩ : PatientContainer))).reverse
          else cids.map (fun c => ⟨c, uid⟩)), []) := by
  rw [history_after_writes l l1 uid cids hu hprior hw, coerceUTF8_valid hu]
  have hm : cids.map (fun c => (⟨coerceUTF8 c, uid⟩ : PatientContainer))
      = cids.map (fun c => ⟨c, uid⟩) :=
    List.map_congr_left (fun c hcm => by rw [coerceUTF8_valid (hc c hcm)])
  rw [hm]

set_option maxRecDepth 100000 in
/-- Witness of C4: three writes to `patient-1` on an empty ledger whose host
iterates oldest first. -/
theorem C4_history_of_writes_witness :
    ReadContainerHistory ((((Ledger.empty false).apply
        (Write.put (ascii "patient-1") (Marshal ⟨ascii "cid-1", ascii "patient-1"⟩))).apply
        (Write.put (ascii "patient-1") (Marshal ⟨ascii "cid-2", ascii "patient-1"⟩))).apply
        (Write.put (ascii "patient-1") (Marshal ⟨ascii "cid-3", ascii "patient-1"⟩))).stub
      (ascii "patient-1")
      = (Except.ok [⟨ascii "cid-1", ascii "patient-1"⟩, ⟨ascii "cid-2", ascii "patient-1"⟩,
          ⟨ascii "cid-3", ascii "patient-1"⟩], []) :=
  C4_history_of_writes (Ledger.empty false) _ (ascii "patient-1")
    [ascii "cid-1", ascii "cid-2", ascii "cid-3"] rfl (by decide) (by decide) (by decide)

set_option maxRecDepth 100000 in
/-- C4 as stated fails: after the one write
`CreateOrUpdateContainer("k", "\xff")` on an empty ledger,
`ReadContainerHistory("k")` returns the `CID` U+FFFD (`EF BF BD`), not the byte
`FF` that was written. -/
theorem C4_counterexample :
    ((writeAll (Ledger.empty false) (ascii "k") [[0xFF]]).map
        (fun l1 => ReadContainerHistory l1.stub (ascii "k"))
      = some (Except.ok [⟨[0xEF, 0xBF, 0xBD], ascii "k"⟩], [])) ∧
    [(⟨[0xEF, 0xBF, 0xBD], ascii "k"⟩ : PatientContainer)] ≠ [⟨[0xFF], ascii "k"⟩] := by
  decide

set_option maxRecDepth 100000 in
/-- On a host that iterates the history newest first, three writes come back
in reverse write order. -/
theorem history_newest_first_example :
    (writeAll (Ledger.empty true) (ascii "k") [ascii "c1", ascii "c2", ascii "c3"]).map
        (fun l1 => ReadContainerHistory l1.stub (ascii "k"))
      = some (Except.ok [⟨ascii "c3", ascii "k"⟩, ⟨ascii "c2", ascii "k"⟩,
          ⟨ascii "c1", ascii "k"⟩], []) := by
  decide

/-- C5 at a concrete input: on the empty ledger, where `patient-1` was never
written, `ReadContainerHistory("patient-1")` returns the empty list without
error; the not-found error is returned only for a nil iterator. -/
theorem C5_history_never_written_succeeds :
    ReadContainerHistory (Ledger.empty false).stub (ascii "patient-1") = (Except.ok [], []) ∧
    ReadContainerHistory (Ledger.empty true).stub (ascii "patient-1") = (Except.ok [], []) := by
  decide

/-- C6, as amended: `ReadContainer(uid)` classifies its outcome by what the
stub's `GetState` answers. It fails with the not-found error exactly when the
read succeeds and no value is stored. When bytes are stored, it fails with the
decoder's syntax error when they are not one JSON value (the empty byte string
among them), and with the decoder's type error when the value is neither
`null` nor an object, or is an object with a `CID` or `UID` member that is
neither a string nor `null`. Otherwise the bytes decode: `null` gives the
container with two empty fields, an object gives each field the string of its
last member of that name, and the bytes that `CreateOrUpdateContainer` stores
for a container give that container, with every byte that is not valid UTF-8
replaced. A failing read gives the read-failure error, which differs from
not-found; and in every case no write is made, so the ledger after the
transaction is the ledger before it. -/
theorem C6_read_classification (stub : Stub) (uid : Bytes) :
    ((ReadContainer stub uid).1 = Except.error (notFound uid) ↔
        stub.GetState uid = Answer.ok none) ∧
      (∀ b, stub.GetState uid = Answer.ok (some b) →
        (parseJSON b = none →
          (ReadContainer stub uid).1 = Except.error (Error.json JsonError.invalid)) ∧
        (b = [] → (ReadContainer stub uid).1 = Except.error (Error.json JsonError.invalid)) ∧
        (∀ v, parseJSON b = some v → v ≠ JValue.null → (∀ ms, v ≠ JValue.object ms) →
          (ReadContainer stub uid).1 = Except.error (Error.json JsonError.mismatch)) ∧
        (∀ ms, parseJSON b = some (JValue.object ms) → ms.any badMember = true →
          (ReadContainer stub uid).1 = Except.error (Error.json JsonError.mismatch)) ∧
        (parseJSON b = some JValue.null → (ReadContainer stub uid).1 = Except.ok ⟨[], []⟩) ∧
        (∀ ms, parseJSON b = some (JValue.object ms) → ms.any badMember = false →
          (ReadContainer stub uid).1 = Except.ok ⟨fieldOf "CID" ms, fieldOf "UID" ms⟩) ∧
        (∀ c, b = Marshal c →
          (ReadContainer stub uid).1 = Except.ok ⟨coerceUTF8 c.CID, coerceUTF8 c.UID⟩)) ∧
      (∀ err, stub.GetState uid = Answer.error err →
        (ReadContainer stub uid).1 = Except.error (readFailed err) ∧
          readFailed err ≠ notFound uid) ∧
      (stub.GetState uid = Answer.panic →
        (ReadContainer stub uid).1 = Except.error Error.stubPanic) ∧
      (ReadContainer stub uid).2 = [] ∧
      ∀ l : Ledger, (l.invoke (fun s => ReadContainer s uid)).2 = l := by
  refine ⟨?_, ?_, ?_, ?_, read_no_write stub uid,
    fun l => invoke_readonly l _ (read_no_write l.stub uid)⟩
  · simp only [ReadContainer]
    cases hg : stub.GetState uid with
    | panic => simp [notFound]
    | error e =>
      simp only [Except.error.injEq, reduceCtorEq, iff_false]
      exact readFailed_ne_notFound e uid
    | ok o =>
      cases o with
      | none => simp
      | some b =>
        cases hu : Unmarshal b with
        | error e => simp [hu, notFound]
        | ok c => simp [hu]
  · intro b hg
    rw [read_stored hg]
    refine ⟨?_, ?_, ?_, ?_, ?_, ?_, ?_⟩
    · intro hp
      simp only [Unmarshal, hp]
      rfl
    · intro hb
      subst hb
      rfl
    · intro v hp hn ho
      simp only [Unmarshal, hp]
      cases v with
      | null => exact absurd rfl hn
      | object ms => exact absurd rfl (ho ms)
      | bool x => rfl
      | number => rfl
      | string s => rfl
      | array items => rfl
    · intro ms hp hbad
      rw [Unmarshal_object hp, if_pos hbad]
      rfl
    · intro hp
      simp only [Unmarshal, hp]
      rfl
    · intro ms hp hbad
      rw [Unmarshal_object hp, if_neg (by simp [hbad])]
      rfl
    · intro c hc
      rw [hc, Unmarshal_Marshal]
      rfl
  · intro e hg
    simp only [ReadContainer, hg]
    exact ⟨trivial, readFailed_ne_notFound e uid⟩
  · intro hg
    simp only [ReadContainer, hg]

set_option maxRecDepth 100000 in
/-- Witness of C6, at `ReadContainer("patient-1")` on six ledgers: the empty one,
and five that store under `patient-1` a truncated object, an array, an object
whose `cid` is a number, an object with repeated and unknown members, and the
bytes written for a container. -/
theorem C6_read_classification_witness :
    (ReadContainer (Ledger.empty false).stub (ascii "patient-1")).1
      = Except.error (notFound (ascii "patient-1")) ∧
    (ReadContainer ((Ledger.empty false).apply
        (Write.put (ascii "patient-1") (ascii "\x7b\"CID\":\"cid-abc\""))).stub
      (ascii "patient-1")).1 = Except.error (Error.json JsonError.invalid) ∧
    (ReadContainer ((Ledger.empty false).apply
        (Write.put (ascii "patient-1") (ascii "[\"cid-abc\",\"patient-1\"]"))).stub
      (ascii "patient-1")).1 = Except.error (Error.json JsonError.mismatch) ∧
    (ReadContainer ((Ledger.empty false).apply
        (Write.put (ascii "patient-1") (ascii "\x7b\"cid\":7,\"UID\":\"patient-1\"\x7d"))).stub
      (ascii "patient-1")).1 = Except.error (Error.json JsonError.mismatch) ∧
    (ReadContainer ((Ledger.empty false).apply
        (Write.put (ascii "patient-1")
          (ascii "\x7b\"uid\":\"u\",\"CID\":\"c\",\"n\":[1],\"UID\":\"patient-1\",\"Cid\":null\x7d"))).stub
      (ascii "patient-1")).1 = Except.ok ⟨ascii "c", ascii "patient-1"⟩ ∧
    (ReadContainer ((Ledger.empty false).apply
        (Write.put (ascii "patient-1") (Marshal ⟨ascii "cid-abc", ascii "patient-1"⟩))).stub
      (ascii "patient-1")).1 = Except.ok ⟨ascii "cid-abc", ascii "patient-1"⟩ :=
  ⟨(C6_read_classification (Ledger.empty false).stub (ascii "patient-1")).1.mpr rfl,
    ((C6_read_classification _ (ascii "patient-1")).2.1
      (ascii "\x7b\"CID\":\"cid-abc\"") rfl).1 rfl,
    ((C6_read_classification _ (ascii "patient-1")).2.1
      (ascii "[\"cid-abc\",\"patient-1\"]") rfl).2.2.1
      (JValue.array [JValue.string (ascii "cid-abc"), JValue.string (ascii "patient-1")])
      rfl (fun h => nomatch h) (fun _ h => nomatch h),
    ((C6_read_classification _ (ascii "patient-1")).2.1
      (ascii "\x7b\"cid\":7,\"UID\":\"patient-1\"\x7d") rfl).2.2.2.1
      [(ascii "cid", JValue.number), (ascii "UID", JValue.string (ascii "patient-1"))]
      rfl (by decide),
    ((C6_read_classification _ (ascii "patient-1")).2.1
      (ascii "\x7b\"uid\":\"u\",\"CID\":\"c\",\"n\":[1],\"UID\":\"patient-1\",\"Cid\":null\x7d")
      rfl).2.2.2.2.2.1
      [(ascii "uid", JValue.string (ascii "u")), (ascii "CID", JValue.string (ascii "c")),
        (ascii "n", JValue.array [JValue.number]),
        (ascii "UID", JValue.string (ascii "patient-1")), (ascii "Cid", JValue.null)]
      rfl (by decide),
    ((C6_read_classification _ (ascii "patient-1")).2.1
      (Marshal ⟨ascii "cid-abc", ascii "patient-1"⟩) rfl).2.2.2.2.2.2
      ⟨ascii "cid-abc", ascii "patient-1"⟩ rfl⟩

set_option maxRecDepth 100000 in
/-- C6 as stated fails: the stored bytes `null`, and likewise the stored bytes
of the empty JSON object, are the serialization of no container, yet
`ReadContainer` decodes them without an error and returns the container with
two empty fields. -/
theorem C6_counterexample :
    (∀ c : PatientContainer, Marshal c ≠ ascii "null") ∧
    ReadContainer ((Ledger.empty false).apply (Write.put (ascii "k") (ascii "null"))).stub
      (ascii "k") = (Except.ok ⟨[], []⟩, []) ∧
    (∀ c : PatientContainer, Marshal c ≠ ascii "\x7b\x7d") ∧
    ReadContainer ((Ledger.empty false).apply (Write.put (ascii "k") (ascii "\x7b\x7d"))).stub
      (ascii "k") = (Except.ok ⟨[], []⟩, []) :=
  ⟨Marshal_ne_null, by decide, Marshal_ne_braces, by decide⟩

/-- C7, as amended: the existence lifecycle. On a reachable ledger where a
valid UTF-8 `uid` was never written `ContainerExists(uid)` returns false;
for every `uid`, after a successful `CreateOrUpdateContainer(uid, cid)` it
returns true, and after a following successful `DeleteContainer(uid)` it
returns false again. In each of these cases it returns without error, and in
every case it writes nothing, so the ledger is unchanged. -/
theorem C7_exists_lifecycle (l : Ledger) (uid cid : Bytes) :
    (Reachable l → utf8Valid uid = true → l.historyFor uid = [] →
        ContainerExists l.stub uid = (Except.ok false, [])) ∧
      (∀ l1, l.after (fun s => CreateOrUpdateContainer s uid cid) = some l1 →
        ContainerExists l1.stub uid = (Except.ok true, []) ∧
        ∀ l2, l1.after (fun s => DeleteContainer s uid) = some l2 →
          ContainerExists l2.stub uid = (Except.ok false, [])) ∧
      (l.invoke (fun s => ContainerExists s uid)).2 = l := by
  refine ⟨?_, ?_, ?_⟩
  · intro hr hu hh
    have hn : getKey uid l.world = none := by
      by_contra hc
      exact reachable_history hr uid hc hh
    simp only [ContainerExists, stub_GetState l hu, hn]
    rfl
  · intro l1 h1
    obtain ⟨_, hu, rfl⟩ := create_after_valid.mp h1
    refine ⟨?_, ?_⟩
    · simp only [ContainerExists, stub_GetState _ hu, Ledger.apply, getKey_putKey_self]
      rfl
    · intro l2 h2
      obtain ⟨_, _, rfl⟩ := delete_after.mp h2
      simp only [ContainerExists, stub_GetState _ hu, Ledger.apply, getKey_delKey_self]
      rfl
  · apply invoke_readonly
    simp only [ContainerExists]
    cases l.stub.GetState uid <;> rfl

set_option maxRecDepth 100000 in
/-- Witness of C7: the lifecycle of `patient-1` from the empty ledger. -/
theorem C7_exists_lifecycle_witness :
    ContainerExists (Ledger.empty false).stub (ascii "patient-1") = (Except.ok false, []) ∧
    ContainerExists ((Ledger.empty false).apply
        (Write.put (ascii "patient-1") (Marshal ⟨ascii "cid-abc", ascii "patient-1"⟩))).stub
      (ascii "patient-1") = (Except.ok true, []) ∧
    ContainerExists (((Ledger.empty false).apply
        (Write.put (ascii "patient-1") (Marshal ⟨ascii "cid-abc", ascii "patient-1"⟩))).apply
          (Write.del (ascii "patient-1"))).stub
      (ascii "patient-1") = (Except.ok false, []) :=
  have h := C7_exists_lifecycle (Ledger.empty false) (ascii "patient-1") (ascii "cid-abc")
  have h1 := h.2.1 ((Ledger.empty false).apply
    (Write.put (ascii "patient-1") (Marshal ⟨ascii "cid-abc", ascii "patient-1"⟩))) (by decide)
  ⟨h.1 (ReachableBy.empty false) (by decide) rfl, h1.1, h1.2 _ (by decide)⟩

/-- C7 as stated fails: the uid `\xff` is not valid UTF-8 and was never
written on the empty ledger, yet `ContainerExists` does not return false
without error: the read of the key panics in the stub. -/
theorem C7_counterexample :
    Reachable (Ledger.empty false) ∧
    (Ledger.empty false).historyFor [0xFF] = [] ∧
    ContainerExists (Ledger.empty false).stub [0xFF] = (Except.error Error.stubPanic, []) :=
  ⟨ReachableBy.empty false, by decide, by decide⟩

/-- C8, as amended: for every two distinct keys `uidA`, `uidB` outside the
composite-key namespace and values `cidA`, `cidB`, all valid UTF-8, written by
`CreateOrUpdateContainer` to an empty ledger, `GetAllContainers` returns
exactly the two containers `{uidA, cidA}` and `{uidB, cidB}`, in the byte
order of their uids, whichever was written first. In general the result is
the list of the decoded values of all entries of the host's range iterator, in
its order, with no filtering. -/
theorem C8_list_all (newestFirst : Bool) (uidA uidB cidA cidB : Bytes) (lAB lBA : Ledger)
    (hne : uidA ≠ uidB)
    (huA : utf8Valid uidA = true) (huB : utf8Valid uidB = true)
    (hcA : utf8Valid cidA = true) (hcB : utf8Valid cidB = true)
    (hsA : simpleKey uidA = true) (hsB : simpleKey uidB = true)
    (hAB : ((Ledger.empty newestFirst).after (fun s => CreateOrUpdateContainer s uidA cidA)).bind
      (fun l => l.after (fun s => CreateOrUpdateContainer s uidB cidB)) = some lAB)
    (hBA : ((Ledger.empty newestFirst).after (fun s => CreateOrUpdateContainer s uidB cidB)).bind
      (fun l => l.after (fun s => CreateOrUpdateContainer s uidA cidA)) = some lBA) :
    GetAllContainers lAB.stub
        = (Except.ok (if bytesLt uidA uidB then [⟨cidA, uidA⟩, ⟨cidB, uidB⟩]
            else [⟨cidB, uidB⟩, ⟨cidA, uidA⟩]), []) ∧
      GetAllContainers lBA.stub = GetAllContainers lAB.stub ∧
      ∀ (stub : Stub) (kvs : List KV) (assets : List PatientContainer),
        stub.GetStateByRange [] [] = Answer.ok (some (kvs.map Except.ok)) →
        kvs.map (fun kv => Unmarshal kv.Value) = assets.map Except.ok →
          GetAllContainers stub = (Except.ok assets, []) := by
  obtain ⟨l1, h1, h2⟩ := Option.bind_eq_some.mp hAB
  obtain ⟨hA, rfl⟩ := create_after h1
  obtain ⟨hB, rfl⟩ := create_after h2
  obtain ⟨l2, h3, h4⟩ := Option.bind_eq_some.mp hBA
  obtain ⟨_, rfl⟩ := create_after h3
  obtain ⟨_, rfl⟩ := create_after h4
  have hne' : ¬ uidB = uidA := fun h => hne h.symm
  have key : ∀ (l : Ledger),
      (l.world = [(uidA, Marshal ⟨cidA, uidA⟩), (uidB, Marshal ⟨cidB, uidB⟩)] →
        GetAllContainers l.stub = (Except.ok [⟨cidA, uidA⟩, ⟨cidB, uidB⟩], [])) ∧
      (l.world = [(uidB, Marshal ⟨cidB, uidB⟩), (uidA, Marshal ⟨cidA, uidA⟩)] →
        GetAllContainers l.stub = (Except.ok [⟨cidB, uidB⟩, ⟨cidA, uidA⟩], [])) := by
    intro l
    constructor
    · intro hw
      rw [getAll_two l _ _ _ _ hw hA hB hsA hsB, coerceUTF8_valid huA, coerceUTF8_valid huB,
        coerceUTF8_valid hcA, coerceUTF8_valid hcB]
    · intro hw
      rw [getAll_two l _ _ _ _ hw hB hA hsB hsA, coerceUTF8_valid huA, coerceUTF8_valid huB,
        coerceUTF8_valid hcA, coerceUTF8_valid hcB]
  refine ⟨?_, ?_, fun stub kvs assets => getAll_general stub kvs assets⟩
  · cases hlt : bytesLt uidA uidB
    · have hba := bytesLt_total uidA uidB hne hlt
      simp only [Bool.false_eq_true, if_false]
      apply (key _).2
      simp [Ledger.apply, Ledger.empty, putKey, hne', hba]
    · have hba := bytesLt_asymm uidA uidB hlt
      simp only [if_true]
      apply (key _).1
      simp [Ledger.apply, Ledger.empty, putKey, hne', hba]
  · cases hlt : bytesLt uidA uidB
    · have hba := bytesLt_total uidA uidB hne hlt
      rw [(key _).2 (by simp [Ledger.apply, Ledger.empty, putKey, hne, hlt]),
        (key _).2 (by simp [Ledger.apply, Ledger.empty, putKey, hne', hba])]
    · have hba := bytesLt_asymm uidA uidB hlt
      rw [(key _).1 (by simp [Ledger.apply, Ledger.empty, putKey, hne, hlt]),
        (key _).1 (by simp [Ledger.apply, Ledger.empty, putKey, hne', hba])]

set_option maxRecDepth 100000 in
/-- Witness of C8: `uid-b` written before `uid-a` and after it, on an empty
ledger. -/
theorem C8_list_all_witness :
    GetAllContainers (((Ledger.empty false).apply
        (Write.put (ascii "uid-b") (Marshal ⟨ascii "cid-b", ascii "uid-b"⟩))).apply
        (Write.put (ascii "uid-a") (Marshal ⟨ascii "cid-a", ascii "uid-a"⟩))).stub
      = (Except.ok [⟨ascii "cid-a", ascii "uid-a"⟩, ⟨ascii "cid-b", ascii "uid-b"⟩], []) :=
  (C8_list_all false (ascii "uid-b") (ascii "uid-a") (ascii "cid-b") (ascii "cid-a")
    (((Ledger.empty false).apply
        (Write.put (ascii "uid-b") (Marshal ⟨ascii "cid-b", ascii "uid-b"⟩))).apply
        (Write.put (ascii "uid-a") (Marshal ⟨ascii "cid-a", ascii "uid-a"⟩)))
    (((Ledger.empty false).apply
        (Write.put (ascii "uid-a") (Marshal ⟨ascii "cid-a", ascii "uid-a"⟩))).apply
        (Write.put (ascii "uid-b") (Marshal ⟨ascii "cid-b", ascii "uid-b"⟩)))
    (by decide) (by decide) (by decide) (by decide) (by decide) (by decide) (by decide)
    (by decide) (by decide)).1

set_option maxRecDepth 100000 in
/-- C8 as stated fails: after `CreateOrUpdateContainer("a", "\xff")` and
`CreateOrUpdateContainer("b", "c")` on an empty ledger, `GetAllContainers`
lists the container of `a` with the `CID` U+FFFD (`EF BF BD`), not with the
byte `FF` that was written. -/
theorem C8_counterexample :
    ((((Ledger.empty false).after (fun s => CreateOrUpdateContainer s (ascii "a") [0xFF])).bind
        (fun l => l.after (fun s => CreateOrUpdateContainer s (ascii "b") (ascii "c")))).map
        (fun l => GetAllContainers l.stub)
      = some (Except.ok [⟨[0xEF, 0xBF, 0xBD], ascii "a"⟩, ⟨ascii "c", ascii "b"⟩], [])) ∧
    [(⟨[0xEF, 0xBF, 0xBD], ascii "a"⟩ : PatientContainer), ⟨ascii "c", ascii "b"⟩]
      ≠ [⟨[0xFF], ascii "a"⟩, ⟨ascii "c", ascii "b"⟩] := by
  decide

set_option maxRecDepth 100000 in
/-- A key in the composite-key namespace (first byte `0x00`) is stored and
read back, but an open-ended range does not list it. -/
theorem range_skips_composite_namespace :
    ((Ledger.empty false).after (fun s => CreateOrUpdateContainer s [0x00, 0x61] (ascii "c"))).map
        (fun l => (ReadContainer l.stub [0x00, 0x61], GetAllContainers l.stub))
      = some ((Except.ok ⟨ascii "c", [0x00, 0x61]⟩, []), (Except.ok [], [])) := by
  decide

/-- C9: the bytes `CreateOrUpdateContainer(uid, cid)` stores under `uid` are
a function of `(uid, cid)` alone, whatever the ledger: the JSON object text
with the member `"CID"` first and the member `"UID"` second. It parses to an
object with exactly these two members in this order, and two executions with
equal arguments on any two ledgers store the same bytes. -/
theorem C9_deterministic_encoding (l l1 : Ledger) (uid cid : Bytes)
    (h : l.after (fun s => CreateOrUpdateContainer s uid cid) = some l1) :
    getKey uid l1.world
        = some (ascii "\x7b\"CID\":" ++ appendString cid ++ ascii ",\"UID\":" ++ appendString uid
            ++ ascii "\x7d") ∧
      (CreateOrUpdateContainer l.stub uid cid).2
        = [Write.put uid (ascii "\x7b\"CID\":" ++ appendString cid ++ ascii ",\"UID\":"
            ++ appendString uid ++ ascii "\x7d")] ∧
      (∃ vc vu, (getKey uid l1.world).bind parseJSON
        = some (JValue.object [(ascii "CID", JValue.string vc), (ascii "UID", JValue.string vu)])) ∧
      ∀ k k1 : Ledger, k.after (fun s => CreateOrUpdateContainer s uid cid) = some k1 →
        getKey uid k1.world = getKey uid l1.world := by
  have hv : ∀ k k1 : Ledger, k.after (fun s => CreateOrUpdateContainer s uid cid) = some k1 →
      getKey uid k1.world = some (Marshal ⟨cid, uid⟩) := by
    intro k k1 hk
    obtain ⟨_, rfl⟩ := create_after hk
    simp only [Ledger.apply, getKey_putKey_self]
  have hne := (create_after h).1
  refine ⟨hv l l1 h, ?_, ?_, fun k k1 hk => by rw [hv k k1 hk, hv l l1 h]⟩
  · simp only [CreateOrUpdateContainer, stub_PutState_ok l _ hne (create_after_valid.mp h).2.1]
    rfl
  · refine ⟨coerceUTF8 cid, coerceUTF8 uid, ?_⟩
    rw [hv l l1 h]
    obtain ⟨n, hn⟩ : ∃ n, 2 * (Marshal ⟨cid, uid⟩).length + 1 = n + 1 + 1 + 1 + 1 :=
      ⟨2 * (Marshal ⟨cid, uid⟩).length - 3, by have := Marshal_length ⟨cid, uid⟩; omega⟩
    simp only [Option.some_bind, parseJSON, hn, parse_Marshal]
    rfl

set_option maxRecDepth 100000 in
/-- Witness of C9: the bytes stored for `("patient-1", "cid-abc")`. -/
theorem C9_deterministic_encoding_witness :
    getKey (ascii "patient-1") ((Ledger.empty false).apply
        (Write.put (ascii "patient-1") (Marshal ⟨ascii "cid-abc", ascii "patient-1"⟩))).world
      = some (ascii "\x7b\"CID\":\"cid-abc\",\"UID\":\"patient-1\"\x7d") :=
  (C9_deterministic_encoding (Ledger.empty false) _ (ascii "patient-1") (ascii "cid-abc")
    (by decide)).1.trans (by decide)

/-- C10: `GetAllContainersHistory` pairs each listed record with its own
history. On every ledger state, when it succeeds, `GetAllContainers` succeeds
on that state with a result of the same length, and the i-th history equals
the result of `ReadContainerHistory` called with the `UID` of the i-th
container. The history is looked up by the `UID` decoded from the stored
value; on every state reachable through `CreateOrUpdateContainer` and
`DeleteContainer` alone this is the key the value is stored under, so the i-th
history is the history of the key of the i-th listed entry. -/
theorem C10_history_pairing (l : Ledger) (hs : List (List PatientContainer))
    (h : (GetAllContainersHistory l.stub).1 = Except.ok hs) :
    ∃ (assets : List PatientContainer) (kvs : List KV),
      GetAllContainers l.stub = (Except.ok assets, []) ∧
      hs.length = assets.length ∧
      List.Forall₂ (fun a hist => ReadContainerHistory l.stub a.UID = (Except.ok hist, []))
        assets hs ∧
      l.stub.GetStateByRange [] [] = Answer.ok (some (kvs.map Except.ok)) ∧
      List.Forall₂ (fun kv a => Unmarshal kv.Value = Except.ok a) kvs assets ∧
      (Reachable l →
        List.Forall₂ (fun kv a => a.UID = kv.Key) kvs assets ∧
        List.Forall₂ (fun kv hist => ReadContainerHistory l.stub kv.Key = (Except.ok hist, []))
          kvs hs) := by
  simp only [GetAllContainersHistory, stub_range] at h
  obtain ⟨assets, hs1, h1, h2, h3, h4⟩ := resultsHistoryLoop_spec l.stub _ [] [] hs h
  simp only [List.nil_append] at h1 h2
  subst h2
  have h5 : List.Forall₂ (fun (kv : KV) a => Unmarshal kv.Value = Except.ok a)
      ((l.world.filter (fun e => !bytesLt e.1 [0x01])).map (fun e => (⟨e.1, e.2⟩ : KV)))
      assets := by
    rw [List.forall₂_map_left_iff] at h4 ⊢
    refine h4.imp ?_
    rintro e a ⟨kv1, hk, hu⟩
    cases hk
    exact hu
  refine ⟨assets, _, ?_, h3.length_eq.symm, h3, ?_, h5, ?_⟩
  · simp only [GetAllContainers, stub_range, h1]
  · rw [stub_range, List.map_map]
    rfl
  · intro hr
    have hk := reachable_keyed hr
    have h6 : List.Forall₂ (fun (kv : KV) a => a.UID = kv.Key)
        ((l.world.filter (fun e => !bytesLt e.1 [0x01])).map (fun e => (⟨e.1, e.2⟩ : KV)))
        assets := by
      rw [List.forall₂_map_left_iff] at h5 ⊢
      rw [List.forall₂_iff_get] at h5 ⊢
      refine ⟨h5.1, fun i hi1 hi2 => ?_⟩
      have hm := h5.2 i hi1 hi2
      have hmem : (List.filter (fun e => !bytesLt e.1 [0x01]) l.world).get ⟨i, hi1⟩ ∈ l.world :=
        (List.mem_filter.mp (List.get_mem _ _ _)).1
      obtain ⟨c, hc1, hc2⟩ := hk _ hmem
      simp only at hm
      rw [hm] at hc1
      cases hc1
      exact hc2
    refine ⟨h6, ?_⟩
    rw [List.forall₂_iff_get] at h6 h3 ⊢
    refine ⟨h6.1.trans h3.1, fun i hi1 hi2 => ?_⟩
    have ha := h6.2 i hi1 (by rw [← h6.1]; exact hi1)
    have hb := h3.2 i (by rw [← h6.1]; exact hi1) hi2
    rw [← ha]
    exact hb

set_option maxRecDepth 100000 in
/-- Witness of C10: the reachable ledger after one write to `uid-a`, where
`GetAllContainersHistory` returns the one history of one version. -/
theorem C10_history_pairing_witness :
    ∃ (assets : List PatientContainer) (kvs : List KV),
      GetAllContainers ((Ledger.empty false).apply
        (Write.put (ascii "uid-a") (Marshal ⟨ascii "cid-a", ascii "uid-a"⟩))).stub
        = (Except.ok assets, []) ∧
      [[(⟨ascii "cid-a", ascii "uid-a"⟩ : PatientContainer)]].length = assets.length ∧
      List.Forall₂ (fun kv a => a.UID = kv.Key) kvs assets :=
  have h := C10_history_pairing ((Ledger.empty false).apply
      (Write.put (ascii "uid-a") (Marshal ⟨ascii "cid-a", ascii "uid-a"⟩)))
    [[⟨ascii "cid-a", ascii "uid-a"⟩]] (by decide)
  match h with
  | ⟨assets, kvs, h1, h2, _, _, _, h6⟩ =>
    ⟨assets, kvs, h1, h2,
      (h6 (ReachableBy.create (ascii "uid-a") (ascii "cid-a") (ReachableBy.empty false) rfl
        (by decide))).1⟩

end Chaincode
